import Mathlib

/-!
Shallow embedding of `src/transform.py`.

A cell of a table is either a Python `str` or a Python `int`; tables
(`dict` of column name to list of values) are insertion-ordered association
lists, matching Python's insertion-ordered dictionaries.  Fallible Python
code (exceptions such as `IndexError`, `ValueError`, `TypeError`) is
modelled with `Option`.  Python's `sorted` is a stable sort; we model it
with `List.insertionSort`, which is stable and kernel-evaluable.  Python
raises `TypeError` when comparing an `int` with a `str`; the embedded
order on cells totalises this (ints before strings) and every theorem
that depends on an order restricts itself, by hypothesis, to homogeneous
comparisons, where the embedded order agrees with Python.
-/

inductive Cell : Type where
  | str : String → Cell
  | int : Int → Cell
deriving DecidableEq, Repr

/-- One loaded dataset: an insertion-ordered mapping from column name to
the ordered list of that column's values, as built by the loaders. -/
abbrev Table := List (String × List Cell)

/-- Code-point comparison of strings (Python's `<=` on `str`), on the
underlying character lists so that it evaluates in the kernel. -/
def strLeb : List Char → List Char → Bool
  | [], _ => true
  | _ :: _, [] => false
  | a :: as, b :: bs => if a = b then strLeb as bs else decide (a < b)

/-- Numeric value of a digit list, underscores skipped. -/
def digitsVal (l : List Char) : Nat :=
  (l.filter (fun c => c ≠ '_')).foldl (fun a c => 10 * a + (c.toNat - 48)) 0

/-- Validity of the part of a digit group after its first digit, as an
automaton whose state `und` records whether the previous character was an
underscore: underscores must sit between two digits (Python `int` literal
rule: no leading, trailing or doubled underscore). -/
def digitsTail : Bool → List Char → Bool
  | und, [] => !und
  | und, c :: rest =>
    if c = '_' then (!und) && digitsTail true rest
    else c.isDigit && digitsTail false rest

/-- Validity of a digit group: nonempty, digits with single underscores
between digits. -/
def validDigits : List Char → Bool
  | [] => false
  | c :: rest => c.isDigit && digitsTail false rest

/-- Strip ASCII whitespace from both ends of a character list. -/
def stripWs (l : List Char) : List Char :=
  ((l.dropWhile Char.isWhitespace).reverse.dropWhile Char.isWhitespace).reverse

/-- Body of `pyInt` after whitespace stripping: optional sign, then a
nonempty digit group. -/
def pyIntCore : List Char → Option Int
  | [] => none
  | c :: rest =>
    if c = '+' then (if validDigits rest then some (digitsVal rest : Int) else none)
    else if c = '-' then (if validDigits rest then some (-(digitsVal rest : Int)) else none)
    else if validDigits (c :: rest) then some (digitsVal (c :: rest) : Int) else none

/-- Python's `int(s)` on a string: optional surrounding whitespace,
optional sign, then a nonempty ASCII digit group (underscores allowed
between digits).  `none` models `ValueError`.  We restrict to ASCII:
Python also accepts Unicode digits and a few more Unicode space
characters, which no input of this program uses. -/
def pyInt (l : List Char) : Option Int := pyIntCore (stripWs l)

/-- Python's `int(v)` applied to a cell: identity on ints, parse on
strings. -/
def cellToInt : Cell → Option Int
  | Cell.int n => some n
  | Cell.str s => pyInt s.data

/-- Map a fallible function over a list, failing on the first failure:
a Python loop whose body may raise. -/
def optMapM {α β : Type} (f : α → Option β) : List α → Option (List β)
  | [] => some []
  | a :: rest =>
    match f a with
    | none => none
    | some b => (optMapM f rest).map (fun bs => b :: bs)

theorem optMapM_some_iff {α β : Type} (f : α → Option β) :
    ∀ (l : List α) (res : List β),
      optMapM f l = some res ↔ List.Forall₂ (fun a b => f a = some b) l res
  | [], res => by
    constructor
    · intro h
      cases res with
      | nil => exact List.Forall₂.nil
      | cons b bs => simp [optMapM] at h
    · intro h
      cases h
      rfl
  | a :: rest, res => by
    constructor
    · intro h
      cases hfa : f a with
      | none => rw [optMapM, hfa] at h; exact absurd h (by simp)
      | some b =>
        rw [optMapM, hfa] at h
        cases hrest : optMapM f rest with
        | none => rw [hrest] at h; exact absurd h (by simp)
        | some bs =>
          rw [hrest] at h
          have h2 : b :: bs = res := by simpa using h
          subst h2
          exact List.Forall₂.cons hfa ((optMapM_some_iff f rest bs).mp hrest)
    · intro h
      cases h with
      | cons hab hrest =>
        rw [optMapM, hab, (optMapM_some_iff f rest _).mpr hrest]
        rfl

/-- Sort key of a column name, as in `lambda s: tuple([str(s[0]), int(s[1:])])`.
Only meaningful when the name is nonempty and the suffix parses; the
defaults are never reached under the guard in `sort_keys`. -/
def nameKey (s : String) : Char × Int :=
  (s.data.headD ' ', (pyInt (s.data.drop 1)).getD 0)

/-- Comparison of two column names by `(first character, integer suffix)`,
Python tuple comparison of `(str(s[0]), int(s[1:]))`. -/
def nameLeb (a b : String) : Bool :=
  if (nameKey a).1 = (nameKey b).1 then decide ((nameKey a).2 ≤ (nameKey b).2)
  else decide ((nameKey a).1 < (nameKey b).1)

/-- Propositional form of `nameLeb`, used as the sort relation. -/
def nameR (a b : String) : Prop := nameLeb a b = true

instance : DecidableRel nameR := fun a b => by unfold nameR; infer_instance

instance : IsTotal String nameR := by
  constructor
  intro a b
  unfold nameR nameLeb
  rcases lt_trichotomy (nameKey a).1 (nameKey b).1 with h | h | h
  · left; simp [h, ne_of_lt h]
  · rcases le_total (nameKey a).2 (nameKey b).2 with h2 | h2
    · left; simp [h, h2]
    · right; simp [h.symm, h2]
  · right; simp [h, ne_of_lt h]

instance : IsTrans String nameR := by
  constructor
  intro a b c hab hbc
  unfold nameR nameLeb at *
  by_cases h1 : (nameKey a).1 = (nameKey b).1
  · by_cases h2 : (nameKey b).1 = (nameKey c).1
    · rw [if_pos h1] at hab
      rw [if_pos h2] at hbc
      rw [if_pos (h1.trans h2)]
      simp only [decide_eq_true_eq] at hab hbc ⊢
      exact le_trans hab hbc
    · rw [if_pos h1] at hab
      rw [if_neg h2] at hbc
      have h3 : (nameKey a).1 ≠ (nameKey c).1 := by rw [h1]; exact h2
      rw [if_neg h3, h1]
      exact hbc
  · by_cases h2 : (nameKey b).1 = (nameKey c).1
    · rw [if_neg h1] at hab
      have h3 : (nameKey a).1 ≠ (nameKey c).1 := by rw [← h2]; exact h1
      rw [if_neg h3, ← h2]
      exact hab
    · rw [if_neg h1] at hab
      rw [if_neg h2] at hbc
      simp only [decide_eq_true_eq] at hab hbc ⊢
      have h4 := lt_trans hab hbc
      rw [if_neg (ne_of_lt h4)]
      simp [h4]

/-- Embedding of `sort_keys` (`transform.py` lines 108-112):
`sorted(data, key=lambda s: tuple([str(s[0]), int(s[1:])]))`.
Python's `sorted` evaluates the key on every element first, so any name
whose suffix `int()` rejects (or the empty name, whose `s[0]` raises
`IndexError`; its suffix is also unparsable) aborts the sort. -/
def sort_keys (names : List String) : Option (List String) :=
  if names.all (fun s => (pyInt (s.data.drop 1)).isSome) then
    some (names.insertionSort nameR)
  else none

/-- Embedding of `format_values` (`transform.py` lines 115-126): values of
columns whose name starts with `"M"` are passed through `int()`; every
other column is kept as is. -/
def format_values (t : Table) : Option Table :=
  optMapM (fun p =>
    if p.1.data.headD ' ' = 'M' then
      (optMapM (fun v => (cellToInt v).map Cell.int) p.2).map (fun ns => (p.1, ns))
    else some p) t

theorem strLeb_total : ∀ a b : List Char, strLeb a b = true ∨ strLeb b a = true
  | [], _ => Or.inl rfl
  | _ :: _, [] => Or.inr rfl
  | a :: as, b :: bs => by
    by_cases h : a = b
    · subst h
      simpa [strLeb] using strLeb_total as bs
    · have h2 : b ≠ a := fun e => h e.symm
      rcases lt_or_gt_of_ne h with hlt | hgt
      · left; simp [strLeb, h, hlt]
      · right; simp [strLeb, h2, hgt]

theorem strLeb_trans : ∀ a b c : List Char,
    strLeb a b = true → strLeb b c = true → strLeb a c = true
  | [], _, _, _, _ => rfl
  | _ :: _, [], _, hab, _ => by simp [strLeb] at hab
  | _ :: _, _ :: _, [], _, hbc => by simp [strLeb] at hbc
  | a :: as, b :: bs, c :: cs, hab, hbc => by
    by_cases h1 : a = b <;> by_cases h2 : b = c
    · subst h1; subst h2
      simp only [strLeb, if_pos rfl] at hab hbc ⊢
      exact strLeb_trans as bs cs hab hbc
    · subst h1
      simp only [strLeb, if_pos rfl, if_neg h2] at hbc ⊢
      exact hbc
    · subst h2
      simp only [strLeb, if_neg h1] at hab ⊢
      exact hab
    · simp only [strLeb, if_neg h1, if_neg h2, decide_eq_true_eq] at hab hbc
      have h3 : a < c := lt_trans hab hbc
      simp [strLeb, ne_of_lt h3, h3]

theorem strLeb_antisymm : ∀ a b : List Char,
    strLeb a b = true → strLeb b a = true → a = b
  | [], [], _, _ => rfl
  | [], _ :: _, _, hba => by simp [strLeb] at hba
  | _ :: _, [], hab, _ => by simp [strLeb] at hab
  | a :: as, b :: bs, hab, hba => by
    by_cases h : a = b
    · subst h
      simp only [strLeb, if_pos rfl] at hab hba
      rw [strLeb_antisymm as bs hab hba]
    · have h2 : b ≠ a := fun e => h e.symm
      simp only [strLeb, if_neg h, if_neg h2, decide_eq_true_eq] at hab hba
      exact absurd (lt_trans hab hba) (lt_irrefl a)

/-- Comparison of two cells.  Python raises `TypeError` on an `int`/`str`
comparison; the embedding totalises the order (ints before strings), and
theorems that rely on the order assume homogeneous operands, where this
agrees with Python's `<=`. -/
def cellLeb : Cell → Cell → Bool
  | Cell.int m, Cell.int n => decide (m ≤ n)
  | Cell.str s, Cell.str t => strLeb s.data t.data
  | Cell.int _, Cell.str _ => true
  | Cell.str _, Cell.int _ => false

/-- Propositional form of `cellLeb`. -/
def cellR (a b : Cell) : Prop := cellLeb a b = true

instance : DecidableRel cellR := fun a b => by unfold cellR; infer_instance

theorem cellLeb_total : ∀ a b : Cell, cellLeb a b = true ∨ cellLeb b a = true
  | Cell.int m, Cell.int n => by
    rcases le_total m n with h | h
    · left; simpa [cellLeb]
    · right; simpa [cellLeb]
  | Cell.str s, Cell.str t => by simpa [cellLeb] using strLeb_total s.data t.data
  | Cell.int _, Cell.str _ => Or.inl rfl
  | Cell.str _, Cell.int _ => Or.inr rfl

theorem cellLeb_trans : ∀ a b c : Cell,
    cellLeb a b = true → cellLeb b c = true → cellLeb a c = true
  | Cell.int _, Cell.int _, Cell.int _, hab, hbc => by
    simp only [cellLeb, decide_eq_true_eq] at hab hbc ⊢
    exact le_trans hab hbc
  | Cell.str s, Cell.str t, Cell.str u, hab, hbc =>
    strLeb_trans s.data t.data u.data hab hbc
  | Cell.int _, _, Cell.str _, _, _ => rfl
  | Cell.int _, Cell.str _, Cell.int _, _, hbc => by simp [cellLeb] at hbc
  | Cell.str _, Cell.int _, _, hab, _ => by simp [cellLeb] at hab
  | Cell.str _, Cell.str _, Cell.int _, _, hbc => by simp [cellLeb] at hbc

theorem cellLeb_antisymm : ∀ a b : Cell,
    cellLeb a b = true → cellLeb b a = true → a = b
  | Cell.int m, Cell.int n, hab, hba => by
    simp only [cellLeb, decide_eq_true_eq] at hab hba
    rw [le_antisymm hab hba]
  | Cell.str s, Cell.str t, hab, hba => by
    have h := strLeb_antisymm s.data t.data hab hba
    cases s; cases t; simp only at h; rw [h]
  | Cell.int _, Cell.str _, _, hba => by simp [cellLeb] at hba
  | Cell.str _, Cell.int _, hab, _ => by simp [cellLeb] at hab

instance : IsTotal Cell cellR := ⟨fun a b => cellLeb_total a b⟩

instance : IsTrans Cell cellR := ⟨fun a b c => cellLeb_trans a b c⟩

/-- Lexicographic comparison of key tuples, Python's `<=` on tuples:
walk the components, skipping equal ones; a proper prefix is smaller. -/
def keyLeb : List Cell → List Cell → Bool
  | [], _ => true
  | _ :: _, [] => false
  | a :: as, b :: bs => if a = b then keyLeb as bs else cellLeb a b

/-- Propositional form of `keyLeb`. -/
def keyR (a b : List Cell) : Prop := keyLeb a b = true

instance : DecidableRel keyR := fun a b => by unfold keyR; infer_instance

theorem keyLeb_total : ∀ a b : List Cell, keyLeb a b = true ∨ keyLeb b a = true
  | [], _ => Or.inl rfl
  | _ :: _, [] => Or.inr rfl
  | a :: as, b :: bs => by
    by_cases h : a = b
    · subst h
      simpa [keyLeb] using keyLeb_total as bs
    · have h2 : b ≠ a := fun e => h e.symm
      rcases cellLeb_total a b with hc | hc
      · left; simp [keyLeb, h, hc]
      · right; simp [keyLeb, h2, hc]

theorem keyLeb_trans : ∀ a b c : List Cell,
    keyLeb a b = true → keyLeb b c = true → keyLeb a c = true
  | [], _, _, _, _ => rfl
  | _ :: _, [], _, hab, _ => by simp [keyLeb] at hab
  | _ :: _, _ :: _, [], _, hbc => by simp [keyLeb] at hbc
  | a :: as, b :: bs, c :: cs, hab, hbc => by
    by_cases h1 : a = b <;> by_cases h2 : b = c
    · subst h1; subst h2
      simp only [keyLeb, if_pos rfl] at hab hbc ⊢
      exact keyLeb_trans as bs cs hab hbc
    · subst h1
      simp only [keyLeb, if_pos rfl, if_neg h2] at hbc ⊢
      exact hbc
    · subst h2
      simp only [keyLeb, if_neg h1] at hab ⊢
      exact hab
    · simp only [keyLeb, if_neg h1, if_neg h2] at hab hbc
      by_cases h3 : a = c
      · subst h3
        exact absurd (cellLeb_antisymm a b hab hbc) h1
      · simp only [keyLeb, if_neg h3]
        exact cellLeb_trans a b c hab hbc

theorem keyLeb_antisymm : ∀ a b : List Cell,
    keyLeb a b = true → keyLeb b a = true → a = b
  | [], [], _, _ => rfl
  | [], _ :: _, _, hba => by simp [keyLeb] at hba
  | _ :: _, [], hab, _ => by simp [keyLeb] at hab
  | a :: as, b :: bs, hab, hba => by
    by_cases h : a = b
    · subst h
      simp only [keyLeb, if_pos rfl] at hab hba
      rw [keyLeb_antisymm as bs hab hba]
    · have h2 : b ≠ a := fun e => h e.symm
      simp only [keyLeb, if_neg h, if_neg h2] at hab hba
      exact absurd (cellLeb_antisymm a b hab hba) h

instance : IsTotal (List Cell) keyR := ⟨fun a b => keyLeb_total a b⟩

instance : IsTrans (List Cell) keyR := ⟨fun a b c => keyLeb_trans a b c⟩

/-- First-occurrence deduplication with an accumulator of already seen
elements; `dedupSeen seen l` drops the elements of `l` that occur in
`seen` or earlier in `l`. -/
def dedupSeen {α : Type} [DecidableEq α] : List α → List α → List α
  | _, [] => []
  | seen, a :: rest =>
    if a ∈ seen then dedupSeen seen rest else a :: dedupSeen (a :: seen) rest

/-- First-occurrence deduplication, the canonical representative chosen
for Python's unspecified-order `set(...)` conversions (the callers below
either sort the result by a total order or only use it as a key set, so
the choice of order is immaterial). -/
def dedup1 {α : Type} [DecidableEq α] (l : List α) : List α := dedupSeen [] l

theorem mem_dedupSeen {α : Type} [DecidableEq α] :
    ∀ (l seen : List α) (x : α), x ∈ dedupSeen seen l ↔ x ∈ l ∧ x ∉ seen
  | [], seen, x => by simp [dedupSeen]
  | a :: rest, seen, x => by
    by_cases h : a ∈ seen
    · rw [dedupSeen, if_pos h, mem_dedupSeen rest seen x]
      constructor
      · exact fun ⟨h1, h2⟩ => ⟨List.mem_cons_of_mem a h1, h2⟩
      · rintro ⟨h1, h2⟩
        rcases List.mem_cons.mp h1 with rfl | h1
        · exact absurd h h2
        · exact ⟨h1, h2⟩
    · rw [dedupSeen, if_neg h]
      constructor
      · intro hx
        rcases List.mem_cons.mp hx with rfl | hx2
        · exact ⟨List.mem_cons_self x rest, h⟩
        · obtain ⟨h1, h2⟩ := (mem_dedupSeen rest (a :: seen) x).mp hx2
          exact ⟨List.mem_cons_of_mem a h1, fun hs => h2 (List.mem_cons_of_mem a hs)⟩
      · rintro ⟨h1, h2⟩
        rcases List.mem_cons.mp h1 with rfl | h1
        · exact List.mem_cons_self x _
        · by_cases hx : x = a
          · subst hx; exact List.mem_cons_self x _
          · exact List.mem_cons_of_mem a ((mem_dedupSeen rest (a :: seen) x).mpr
              ⟨h1, fun hs => (List.mem_cons.mp hs).elim hx h2⟩)

theorem mem_dedup1 {α : Type} [DecidableEq α] (l : List α) (x : α) :
    x ∈ dedup1 l ↔ x ∈ l := by
  rw [dedup1, mem_dedupSeen]
  simp

theorem nodup_dedupSeen {α : Type} [DecidableEq α] :
    ∀ (l seen : List α), (dedupSeen seen l).Nodup
  | [], _ => List.nodup_nil
  | a :: rest, seen => by
    by_cases h : a ∈ seen
    · rw [dedupSeen, if_pos h]
      exact nodup_dedupSeen rest seen
    · rw [dedupSeen, if_neg h]
      refine List.nodup_cons.mpr ⟨fun hmem => ?_, nodup_dedupSeen rest (a :: seen)⟩
      exact ((mem_dedupSeen rest (a :: seen) a).mp hmem).2 (List.mem_cons_self a seen)

theorem nodup_dedup1 {α : Type} [DecidableEq α] (l : List α) : (dedup1 l).Nodup :=
  nodup_dedupSeen l []

theorem dedupSeen_eq_self {α : Type} [DecidableEq α] :
    ∀ (l seen : List α), l.Nodup → (∀ x ∈ l, x ∉ seen) → dedupSeen seen l = l
  | [], _, _, _ => rfl
  | a :: rest, seen, hnd, hdis => by
    rw [dedupSeen, if_neg (hdis a (List.mem_cons_self a rest))]
    congr 1
    refine dedupSeen_eq_self rest (a :: seen) (List.nodup_cons.mp hnd).2 ?_
    intro x hx hmem
    rcases List.mem_cons.mp hmem with rfl | h3
    · exact (List.nodup_cons.mp hnd).1 hx
    · exact hdis x (List.mem_cons_of_mem a hx) h3

theorem dedup1_eq_self {α : Type} [DecidableEq α] (l : List α) (h : l.Nodup) :
    dedup1 l = l :=
  dedupSeen_eq_self l [] h (by simp)

theorem dedup1_ne_nil {α : Type} [DecidableEq α] (a : α) (l : List α) :
    dedup1 (a :: l) ≠ [] := by
  rw [dedup1, dedupSeen, if_neg (List.not_mem_nil a)]
  exact List.cons_ne_nil _ _

/-- Schema of a pipeline run (`transform.py` lines 212-217): the column
names of the FIRST loaded dataset only (`complex_data[0].keys()`), passed
through `set` and `sort_keys`.  The `set` conversion yields the distinct
names in an unspecified order; we take first-occurrence order, which the
total sort then canonicalises.  `none` models the `IndexError` on an
empty dataset list. -/
def mainSchema (tables : List Table) : Option (List String) :=
  match tables with
  | [] => none
  | t :: _ => sort_keys (dedup1 (t.map (fun p => p.1)))

/-- Back-fill value for a missing column (`transform.py` lines 239-244):
empty string when the name starts with `D`, integer zero otherwise. -/
def filler (c : String) : Cell :=
  if c.data.headD ' ' = 'D' then Cell.str "" else Cell.int 0

/-- Python `dataset[column]` lookup guarded by `column in dataset.keys()`. -/
def lookupCol (t : Table) (c : String) : Option (List Cell) :=
  (t.find? (fun p => p.1 = c)).map (fun p => p.2)

/-- Row count of a dataset (`len(list(dataset.values())[0])`): the length
of the first column's value list; `none` models the `IndexError` on a
dataset with no columns. -/
def rowCountOf (t : Table) : Option Nat :=
  t.head?.map (fun p => p.2.length)

/-- Append values to one column of the accumulating merged dictionary
(`result_dataset[column].extend(...)`). -/
def extendCol (r : Table) (c : String) (vs : List Cell) : Table :=
  r.map (fun p => if p.1 = c then (p.1, p.2 ++ vs) else p)

/-- Contribution of one dataset to one schema column (`transform.py`
lines 229-244): the dataset's values when the column is present,
`row_count` filler values otherwise. -/
def colContrib (t : Table) (rc : Nat) (c : String) : List Cell :=
  match lookupCol t c with
  | some vs => vs
  | none => List.replicate rc (filler c)

/-- One iteration of the merge loop (`transform.py` lines 224-244): for a
single dataset, walk the schema columns, appending that dataset's
contribution to each. -/
def mergeStep (schema : List String) (r : Table) (t : Table) : Option Table :=
  (rowCountOf t).map (fun rc =>
    schema.foldl (fun acc c => extendCol acc c (colContrib t rc c)) r)

/-- The empty merged dictionary `{key: [] for key in sorted_keys}` (a dict
comprehension keeps one entry per distinct key, at its first position). -/
def emptyTable (schema : List String) : Table :=
  (dedup1 schema).map (fun c => (c, ([] : List Cell)))

/-- Embedding of the merge loop of `__main__` (`transform.py` lines
221-249): fold the per-dataset step over all datasets in input order. -/
def mergeTables (tables : List Table) (schema : List String) : Option Table :=
  tables.foldlM (mergeStep schema) (emptyTable schema)

/-- Python's `zip(*columns)`: pair the i-th value of every column,
truncating at the shortest column. -/
def pyZipAux : List Cell → List (List Cell) → List (List Cell)
  | [], _ => []
  | v :: vs, others =>
    if others.all (fun l => !l.isEmpty) then
      (v :: others.map (fun l => l.headD (Cell.int 0))) ::
        pyZipAux vs (others.map List.tail)
    else []

/-- Python's `zip(*columns)` for a whole column list. -/
def pyZip : List (List Cell) → List (List Cell)
  | [] => []
  | c :: cs => pyZipAux c cs

/-- Row comparison used by `compose_rows`' sort: compare the cells at the
order column's index (`key=lambda v: v[order_index]`; the default cell is
never reached, the index being within every zipped row). -/
def rowLe (idx : Nat) (r1 r2 : List Cell) : Prop :=
  cellR (r1.getD idx (Cell.int 0)) (r2.getD idx (Cell.int 0))

instance (idx : Nat) : DecidableRel (rowLe idx) := fun a b => by
  unfold rowLe; infer_instance

instance (idx : Nat) : IsTotal (List Cell) (rowLe idx) :=
  ⟨fun a b => cellLeb_total _ _⟩

instance (idx : Nat) : IsTrans (List Cell) (rowLe idx) :=
  ⟨fun a b c => cellLeb_trans _ _ _⟩

/-- Embedding of `compose_rows` (`transform.py` lines 129-151): header row
of the column names, then the zipped value rows stably sorted by the
order column's value.  `none` models the `ValueError` of `.index` when
the order column is absent. -/
def compose_rows (data : Table) (order_by : String) : Option (List (List Cell)) :=
  let header := data.map (fun p => p.1)
  match List.indexOf? order_by header with
  | none => none
  | some idx =>
    some ((header.map Cell.str) ::
      (pyZip (data.map (fun p => p.2))).insertionSort (rowLe idx))

/-- Python `+` on two cells: integer addition, string concatenation;
`none` models the `TypeError` on mixed operands. -/
def cellAdd : Cell → Cell → Option Cell
  | Cell.int a, Cell.int b => some (Cell.int (a + b))
  | Cell.str a, Cell.str b => some (Cell.str (a ++ b))
  | _, _ => none

/-- Add a value into position `idx` of an accumulator list
(`grouped_data[this_key][index] += value`); `none` models the
`IndexError` on an out-of-range index or the `TypeError` of `+`. -/
def listAddAt (l : List Cell) (idx : Nat) (v : Cell) : Option (List Cell) :=
  match l[idx]? with
  | none => none
  | some a => (cellAdd a v).map (fun s => l.set idx s)

/-- The grouping dictionary: unique key tuple to measure accumulator. -/
abbrev GDict := List (List Cell × List Cell)

/-- Add a value at index `idx` of key `k`'s accumulator; `none` models a
`KeyError` (unreachable in `group_values`) or a failure of `listAddAt`. -/
def dictAdd : GDict → List Cell → Nat → Cell → Option GDict
  | [], _, _, _ => none
  | (k2, vs) :: rest, k, idx, v =>
    if k2 = k then (listAddAt vs idx v).map (fun vs2 => (k2, vs2) :: rest)
    else (dictAdd rest k idx v).map (fun r => (k2, vs) :: r)

/-- The inner fill loop of `group_values`:
`for index, value in enumerate(values): grouped_data[this_key][index] += value`. -/
def addRow (d : GDict) (k : List Cell) (vals : List Cell) : Option GDict :=
  vals.enum.foldlM (fun acc p => dictAdd acc k p.1 p.2) d

/-- The string carried by a cell; `none` models the `TypeError` of
`"D" in column` when the header cell is not a string. -/
def cellStr? : Cell → Option String
  | Cell.str s => some s
  | Cell.int _ => none

/-- Dimension-column count of a header (`transform.py` line 158):
`len([column for column in data[0] if "D" in column])`.  Python's `in`
on strings is substring containment; for the single-character needle
`"D"` this is character containment anywhere in the name. -/
def indexCountOf (names : List String) : Nat :=
  (names.filter (fun c => c.data.contains 'D')).length

/-- Embedding of `group_values` (`transform.py` lines 154-185).  The
header is row 0; `index_count` counts header names containing `"D"`
anywhere (Python's `"D" in column`); each data row is split at
`index_count` into key and values; the distinct keys (`list(set(...))`,
an unspecified order canonicalised by the sort) are sorted and mapped to
all-zero accumulators of length `value_count`; every row's values are
added into its key's accumulator; the result is the header followed by
one `key ++ accumulator` row per sorted key.  `none` models the
`IndexError` of `list(zip(*splitted_rows))[0]` when there is no data row
(`splitted_rows` is empty exactly when `rows` is, so the guard matches on
`rows`; or no row at all), and any failure of the fill loop. -/
def group_values (data : List (List Cell)) : Option (List (List Cell)) :=
  match data with
  | [] => none
  | header :: rows =>
    match optMapM cellStr? header with
    | none => none
    | some names =>
      match rows with
      | [] => none
      | _ :: _ =>
        let index_count := indexCountOf names
        let value_count := header.length - index_count
        let splitted := rows.map (fun r => (r.take index_count, r.drop index_count))
        let sortedKeys := (dedup1 (splitted.map (fun p => p.1))).insertionSort keyR
        let init : GDict := sortedKeys.map (fun k => (k, List.replicate value_count (Cell.int 0)))
        (splitted.foldlM (fun d p => addRow d p.1 p.2) init).map
          (fun filled => header :: filled.map (fun p => p.1 ++ p.2))

theorem digit_not_ws (c : Char) (h : c.isDigit = true) : c.isWhitespace = false := by
  by_contra hw
  rw [Bool.not_eq_false] at hw
  simp only [Char.isWhitespace, Bool.or_eq_true, decide_eq_true_eq] at hw
  rcases hw with ((rfl | rfl) | rfl) | rfl <;> exact absurd h (by decide)

theorem stripWs_digits (l : List Char) (h : ∀ c ∈ l, c.isDigit = true) :
    stripWs l = l := by
  cases l with
  | nil => rfl
  | cons a rest =>
    have ha := h a (List.mem_cons_self a rest)
    rw [stripWs, List.dropWhile_cons, if_neg (by simp [digit_not_ws a ha])]
    cases hr : (a :: rest).reverse with
    | nil => exact absurd hr (by simp)
    | cons b rl =>
      have hb : b ∈ a :: rest := by
        rw [← List.mem_reverse, hr]; exact List.mem_cons_self b rl
      rw [List.dropWhile_cons, if_neg (by simp [digit_not_ws b (h b hb)]), ← hr,
        List.reverse_reverse]

theorem digitsTail_digits : ∀ l : List Char, (∀ c ∈ l, c.isDigit = true) →
    digitsTail false l = true
  | [], _ => rfl
  | c :: rest, h => by
    have hc := h c (List.mem_cons_self c rest)
    have hne : c ≠ '_' := by
      intro e; rw [e] at hc; exact absurd hc (by decide)
    rw [digitsTail, if_neg hne, hc, Bool.true_and]
    exact digitsTail_digits rest (fun d hd => h d (List.mem_cons_of_mem c hd))

theorem validDigits_digits (l : List Char) (hne : l ≠ [])
    (h : ∀ c ∈ l, c.isDigit = true) : validDigits l = true := by
  cases l with
  | nil => exact absurd rfl hne
  | cons c rest =>
    rw [validDigits, h c (List.mem_cons_self c rest), Bool.true_and]
    exact digitsTail_digits rest (fun d hd => h d (List.mem_cons_of_mem c hd))

/-- Modelled from the spec's words, for the refinement comparison of C6
only: a "valid non-negative integer" suffix, i.e. a nonempty string of
decimal digits. -/
def isNonNegIntSuffix (l : List Char) : Bool := !l.isEmpty && l.all Char.isDigit

theorem pyInt_of_digits (l : List Char) (hv : isNonNegIntSuffix l = true) :
    (pyInt l).isSome = true := by
  obtain ⟨hne, hdig⟩ : (!l.isEmpty) = true ∧ l.all Char.isDigit = true := by
    simpa [isNonNegIntSuffix] using hv
  cases l with
  | nil => exact absurd hne (by decide)
  | cons a rest =>
    have hd : ∀ c ∈ a :: rest, c.isDigit = true := by
      simpa [List.all_eq_true] using hdig
    have ha := hd a (List.mem_cons_self a rest)
    rw [pyInt, stripWs_digits _ hd, pyIntCore]
    rw [if_neg (by intro e; rw [e] at ha; exact absurd ha (by decide))]
    rw [if_neg (by intro e; rw [e] at ha; exact absurd ha (by decide))]
    rw [if_pos (validDigits_digits _ (by simp) hd)]
    rfl

example : pyInt "12".data = some 12 := by decide
example : pyInt "-3".data = some (-3) := by decide
example : pyInt "x".data = none := by decide
example : pyInt "1_0".data = some 10 := by decide
example : pyInt "".data = none := by decide
example : sort_keys ["M2", "D1", "M1"] = some ["D1", "M1", "M2"] := by decide
example : sort_keys ["Dx"] = none := by decide
example : sort_keys ["D-1"] = some ["D-1"] := by decide
example :
    group_values [[Cell.str "D1", Cell.str "M1"],
      [Cell.str "x", Cell.int 5], [Cell.str "x", Cell.int 3], [Cell.str "y", Cell.int 2]] =
    some [[Cell.str "D1", Cell.str "M1"],
      [Cell.str "x", Cell.int 8], [Cell.str "y", Cell.int 2]] := by decide
example : group_values [[Cell.str "D1", Cell.str "M1"]] = none := by decide
example :
    compose_rows [("D1", [Cell.str "b", Cell.str "a"]), ("M1", [Cell.int 1, Cell.int 2])] "D1" =
    some [[Cell.str "D1", Cell.str "M1"],
      [Cell.str "a", Cell.int 2], [Cell.str "b", Cell.int 1]] := by decide
example :
    mergeTables [[("D1", [Cell.str "a"])], [("M1", [Cell.int 7, Cell.int 9])]] ["D1", "M1"] =
    some [("D1", [Cell.str "a", Cell.str "", Cell.str ""]),
      ("M1", [Cell.int 0, Cell.int 7, Cell.int 9])] := by decide
example : mainSchema [[("D1", [Cell.str "a"])], [("M1", [Cell.int 7])]] = some ["D1"] := by decide

/-- Claim C10: on a `RowMatrix` holding only a header row and no data
row, `group_values` raises (`list(zip(*splitted_rows))[0]` indexes into
an empty list) instead of returning a header-only table. -/
theorem group_values_header_only_fails (header : List Cell) :
    group_values [header] = none := by
  cases h : optMapM cellStr? header <;> simp [group_values, h]

/-- Claim C6, counterexample: the column name `"D-1"` has a suffix that
is not a valid non-negative integer, yet `sort_keys` accepts it (Python's
`int` parses the sign), so schema unification does not fail exactly on
non-non-negative-integer suffixes. -/
theorem sort_keys_signed_suffix_cex :
    sort_keys ["D-1"] = some ["D-1"] ∧
    isNonNegIntSuffix ("D-1".data.drop 1) = false := by
  constructor
  · decide
  · decide

/-- Claim C6, amended: `sort_keys` fails exactly when some name's suffix
after the first character is not parseable by Python's `int` (an
optionally signed digit group; the empty name also fails this way); in
particular every valid non-negative integer suffix is accepted, and the
column name `"Dx"` causes the failure. -/
theorem sort_keys_failure_condition :
    (∀ names : List String,
      sort_keys names = none ↔ ∃ s ∈ names, pyInt (s.data.drop 1) = none) ∧
    (∀ l : List Char, isNonNegIntSuffix l = true → (pyInt l).isSome = true) ∧
    sort_keys ["Dx"] = none := by
  refine ⟨?_, pyInt_of_digits, by decide⟩
  intro names
  rw [sort_keys]
  by_cases h : names.all (fun s => (pyInt (s.data.drop 1)).isSome) = true
  · rw [if_pos h]
    simp only [List.all_eq_true] at h
    constructor
    · intro hc
      exact absurd hc (by simp)
    · rintro ⟨s, hs, hnone⟩
      have h2 := h s hs
      rw [hnone] at h2
      exact absurd h2 (by decide)
  · rw [if_neg h]
    constructor
    · intro _
      simp only [List.all_eq_true, not_forall] at h
      obtain ⟨s, hs, hns⟩ := h
      exact ⟨s, hs, Option.not_isSome_iff_eq_none.mp (by simpa using hns)⟩
    · intro _
      rfl

/-- Claim C1, counterexample: two loaded tables with disjoint column sets
`{D1}` and `{M1}`; the pipeline's unified schema is built from the first
table's keys only, so it is `["D1"]`: it misses `M1` and its size is 1,
not the sum 2 of the tables' column counts. -/
theorem mainSchema_not_union_cex :
    mainSchema [[("D1", [Cell.str "a"])], [("M1", [Cell.int 7])]] = some ["D1"] ∧
    "M1" ∉ (["D1"] : List String) ∧
    (["D1"] : List String).length ≠ 1 + 1 := by
  refine ⟨by decide, by decide, by decide⟩

/-- Claim C1, amended: the pipeline's unified schema is computed from the
FIRST loaded table alone - later tables contribute nothing - and equals
that table's distinct column names sorted ascending by
(first character, numeric suffix); its size is the first table's
distinct-column count. -/
theorem mainSchema_first_table_only (t : Table) (ts : List Table) :
    mainSchema (t :: ts) = mainSchema [t] ∧
    (∀ out, mainSchema (t :: ts) = some out →
      out.Perm (dedup1 (t.map (fun p => p.1))) ∧
      List.Sorted nameR out ∧
      out.length = (dedup1 (t.map (fun p => p.1))).length) := by
  constructor
  · rfl
  · intro out hout
    rw [mainSchema, sort_keys] at hout
    by_cases h : (dedup1 (t.map (fun p => p.1))).all
        (fun s => (pyInt (s.data.drop 1)).isSome) = true
    · rw [if_pos h, Option.some_inj] at hout
      subst hout
      refine ⟨List.perm_insertionSort nameR _, List.sorted_insertionSort nameR _, ?_⟩
      exact (List.perm_insertionSort nameR _).length_eq
    · rw [if_neg h] at hout
      exact absurd hout (by simp)

theorem forall₂_mem_left {α β : Type} {R : α → β → Prop} {l1 : List α} {l2 : List β}
    (h : List.Forall₂ R l1 l2) : ∀ a ∈ l1, ∃ b ∈ l2, R a b := by
  induction h with
  | nil => intro a ha; exact absurd ha (List.not_mem_nil a)
  | cons hab _ ih =>
    intro x hx
    rcases List.mem_cons.mp hx with rfl | hx2
    · exact ⟨_, List.mem_cons_self _ _, hab⟩
    · obtain ⟨b, hb, hrb⟩ := ih x hx2
      exact ⟨b, List.mem_cons_of_mem _ hb, hrb⟩

theorem optMapM_map_comp {α β γ : Type} (f : α → Option β) (g : β → γ) :
    ∀ l : List α, optMapM (fun a => (f a).map g) l = (optMapM f l).map (List.map g)
  | [] => rfl
  | a :: rest => by
    cases hfa : f a with
    | none => simp [optMapM, hfa]
    | some b =>
      simp only [optMapM, hfa, optMapM_map_comp f g rest, Option.map_some]
      cases optMapM f rest <;> rfl

/-- Claim C5, counterexample: classification is not by first character
alone.  The column `X1` (first character not `D`) would be a measure
column per the claim, so its value `"7"` would be coerced to an integer;
`format_values` leaves it a string (it only coerces `M`-prefixed names).
Also, the aggregator's dimension count treats `MD1` (first character `M`)
as a dimension column, because Python's `"D" in column` looks anywhere in
the name. -/
theorem format_values_nonM_not_coerced_cex :
    format_values [("X1", [Cell.str "7"])] = some [("X1", [Cell.str "7"])] ∧
    (∀ n : Int, Cell.str "7" ≠ Cell.int n) ∧
    indexCountOf ["MD1"] = 1 ∧ "MD1".data.headD ' ' ≠ 'D' :=
  ⟨by decide, fun _ h => Cell.noConfusion h, by decide, by decide⟩

/-- Claim C5, amended: classification is purely syntactic but not by the
first character alone.  Normalization coerces to integers exactly the
columns whose name starts with `M` (every other column keeps its values
verbatim, whatever its first character), and the aggregator counts as
dimension columns the header names containing `D` anywhere; for names
made of a `D` or `M` first character followed by digits, both rules
coincide with first-character classification. -/
theorem classification_syntactic :
    (∀ t ft, format_values t = some ft → ∀ p ∈ t,
      p.1.data.headD ' ' ≠ 'M' → p ∈ ft) ∧
    (∀ t ft, format_values t = some ft → ∀ p ∈ t, p.1.data.headD ' ' = 'M' →
      ∃ ns : List Int, optMapM cellToInt p.2 = some ns ∧ (p.1, ns.map Cell.int) ∈ ft) ∧
    (∀ names : List String,
      (∀ s ∈ names, s.data.headD ' ' = 'D' ∨
        (s.data.headD ' ' = 'M' ∧ ∀ c ∈ s.data.drop 1, c.isDigit = true)) →
      indexCountOf names =
        (names.filter (fun c => decide (c.data.headD ' ' = 'D'))).length) := by
  refine ⟨?_, ?_, ?_⟩
  · intro t ft hft p hp hnm
    obtain ⟨q, hq, hfq⟩ :=
      forall₂_mem_left ((optMapM_some_iff _ t ft).mp hft) p hp
    rw [if_neg hnm, Option.some_inj] at hfq
    rw [hfq]
    exact hq
  · intro t ft hft p hp hm
    obtain ⟨q, hq, hfq⟩ :=
      forall₂_mem_left ((optMapM_some_iff _ t ft).mp hft) p hp
    rw [if_pos hm, optMapM_map_comp cellToInt Cell.int p.2] at hfq
    cases hns : optMapM cellToInt p.2 with
    | none => rw [hns] at hfq; exact absurd hfq (by simp)
    | some ns =>
      rw [hns] at hfq
      have hq2 : (p.1, ns.map Cell.int) = q := by simpa using hfq
      exact ⟨ns, rfl, hq2 ▸ hq⟩
  · intro names hnames
    rw [indexCountOf]
    congr 1
    apply List.filter_congr
    intro s hs
    rcases hnames s hs with hd | ⟨hm, hdig⟩
    · cases hdata : s.data with
      | nil => rw [hdata] at hd; exact absurd hd (by decide)
      | cons c rest =>
        rw [hdata] at hd
        simp only [List.headD_cons] at hd
        subst hd
        simp [List.contains_cons]
    · cases hdata : s.data with
      | nil => rw [hdata] at hm; exact absurd hm (by decide)
      | cons c rest =>
        rw [hdata] at hm hdig
        simp only [List.headD_cons] at hm
        subst hm
        have h1 : ('M' :: rest).contains 'D' = false := by
          simp only [List.contains_cons, Bool.or_eq_false_iff]
          refine ⟨by decide, ?_⟩
          by_contra hc
          rw [Bool.not_eq_false] at hc
          have hmem : 'D' ∈ rest := List.mem_of_elem_eq_true hc
          have h2 := hdig 'D' (by simpa using hmem)
          exact absurd h2 (by decide)
        rw [h1]
        simp

/-- Integer carried by a cell (zero for strings); only applied under a
hypothesis that the cell is an integer. -/
def cellIntD : Cell → Int
  | Cell.int n => n
  | Cell.str _ => 0

/-- Claim C7: when the merged table contains the `order_by` column (at
header index `idx`), `compose_rows` returns the header row followed by
the paired rows stably sorted ascending by the order column's value: the
output rows are a permutation of the zipped rows, sorted by `rowLe idx`,
any correctly ordered pair keeps its relative order (stability - no
secondary key is consulted), and when the order column is numeric its
values form a non-decreasing sequence across the data rows. -/
theorem compose_rows_sorted_stable (data : Table) (order_by : String) (idx : Nat)
    (hidx : List.indexOf? order_by (data.map (fun p => p.1)) = some idx) :
    ∃ rows,
      compose_rows data order_by =
        some (((data.map (fun p => p.1)).map Cell.str) :: rows) ∧
      rows.Perm (pyZip (data.map (fun p => p.2))) ∧
      List.Sorted (rowLe idx) rows ∧
      (∀ a b, rowLe idx a b → List.Sublist [a, b] (pyZip (data.map (fun p => p.2))) →
        List.Sublist [a, b] rows) ∧
      ((∀ r ∈ pyZip (data.map (fun p => p.2)),
          ∃ n : Int, r.getD idx (Cell.int 0) = Cell.int n) →
        List.Sorted (fun x y : Int => x ≤ y)
          (rows.map (fun r => cellIntD (r.getD idx (Cell.int 0))))) := by
  refine ⟨(pyZip (data.map (fun p => p.2))).insertionSort (rowLe idx),
    ?_, List.perm_insertionSort _ _, List.sorted_insertionSort _ _,
    fun a b hab hsub => List.pair_sublist_insertionSort hab hsub, ?_⟩
  · simp only [compose_rows, hidx]
  · intro hnum
    rw [List.Sorted, List.pairwise_map]
    refine List.Pairwise.imp_of_mem ?_ (List.sorted_insertionSort (rowLe idx) _)
    intro a b ha hb hle
    obtain ⟨n, hn⟩ := hnum a ((List.perm_insertionSort (rowLe idx) _).mem_iff.mp ha)
    obtain ⟨m, hm⟩ := hnum b ((List.perm_insertionSort (rowLe idx) _).mem_iff.mp hb)
    rw [rowLe, cellR, hn, hm, cellLeb] at hle
    rw [hn, hm, cellIntD, cellIntD]
    exact of_decide_eq_true hle

/-- Witness of C7 at the concrete merged table
`{D1: [b, a], M1: [1, 2]}` ordered by `D1` (index 0). -/
theorem compose_rows_sorted_stable_witness :
    ∃ rows,
      compose_rows [("D1", [Cell.str "b", Cell.str "a"]),
          ("M1", [Cell.int 1, Cell.int 2])] "D1" =
        some ((([("D1", [Cell.str "b", Cell.str "a"]),
          ("M1", [Cell.int 1, Cell.int 2])].map (fun p => p.1)).map Cell.str) :: rows) ∧
      rows.Perm (pyZip ([("D1", [Cell.str "b", Cell.str "a"]),
          ("M1", [Cell.int 1, Cell.int 2])].map (fun p => p.2))) ∧
      List.Sorted (rowLe 0) rows ∧
      (∀ a b, rowLe 0 a b → List.Sublist [a, b] (pyZip ([("D1", [Cell.str "b", Cell.str "a"]),
          ("M1", [Cell.int 1, Cell.int 2])].map (fun p => p.2))) → List.Sublist [a, b] rows) ∧
      ((∀ r ∈ pyZip ([("D1", [Cell.str "b", Cell.str "a"]),
            ("M1", [Cell.int 1, Cell.int 2])].map (fun p => p.2)),
          ∃ n : Int, r.getD 0 (Cell.int 0) = Cell.int n) →
        List.Sorted (fun x y : Int => x ≤ y)
          (rows.map (fun r => cellIntD (r.getD 0 (Cell.int 0))))) :=
  compose_rows_sorted_stable
    [("D1", [Cell.str "b", Cell.str "a"]), ("M1", [Cell.int 1, Cell.int 2])]
    "D1" 0 (by decide)

/-- Per-column description of the merge loop's output: the concatenation,
over datasets in input order, of each dataset's contribution to the
column (its values when present, `row_count` fillers otherwise). -/
def mergeSpecCol : List Table → String → List Cell
  | [], _ => []
  | t :: ts, c => colContrib t ((rowCountOf t).getD 0) c ++ mergeSpecCol ts c

theorem extendCol_map_shape (schema : List String) (g : String → List Cell)
    (c : String) (vs : List Cell) :
    extendCol (schema.map (fun x => (x, g x))) c vs =
      schema.map (fun x => (x, if x = c then g x ++ vs else g x)) := by
  rw [extendCol, List.map_map]
  apply List.map_congr_left
  intro x _
  by_cases h : x = c <;> simp [h]

theorem foldl_extend (f : String → List Cell) :
    ∀ (cols : List String) (schema : List String) (g : String → List Cell),
      cols.Nodup →
      cols.foldl (fun acc c => extendCol acc c (f c))
          (schema.map (fun x => (x, g x))) =
        schema.map (fun x => (x, if x ∈ cols then g x ++ f x else g x))
  | [], schema, g, _ => by
    rw [List.foldl_nil]
    apply List.map_congr_left
    intro x _
    rw [if_neg (List.not_mem_nil x)]
  | c :: cols, schema, g, hnd => by
    rw [List.foldl_cons, extendCol_map_shape,
      foldl_extend f cols schema _ (List.nodup_cons.mp hnd).2]
    apply List.map_congr_left
    intro x _
    by_cases h1 : x ∈ cols
    · have hxc : x ≠ c := fun e => (List.nodup_cons.mp hnd).1 (e ▸ h1)
      rw [if_pos h1, if_neg hxc, if_pos (List.mem_cons_of_mem c h1)]
    · by_cases h2 : x = c
      · rw [if_neg h1, if_pos h2, if_pos (List.mem_cons.mpr (Or.inl h2))]
        rw [h2]
      · rw [if_neg h1, if_neg h2,
          if_neg (fun hm => (List.mem_cons.mp hm).elim h2 h1)]

theorem mergeStep_spec (schema : List String) (g : String → List Cell)
    (t : Table) (rc : Nat) (hrc : rowCountOf t = some rc)
    (hnd : schema.Nodup) :
    mergeStep schema (schema.map (fun x => (x, g x))) t =
      some (schema.map (fun x => (x, g x ++ colContrib t rc x))) := by
  simp only [mergeStep, hrc, Option.map_some']
  congr 1
  rw [foldl_extend (colContrib t rc) schema schema g hnd]
  apply List.map_congr_left
  intro x hx
  rw [if_pos hx]

theorem mergeTables_fold_spec :
    ∀ (tables : List Table) (schema : List String) (g : String → List Cell),
      schema.Nodup → (∀ t ∈ tables, t ≠ []) →
      tables.foldlM (mergeStep schema) (schema.map (fun x => (x, g x))) =
        some (schema.map (fun x => (x, g x ++ mergeSpecCol tables x)))
  | [], schema, g, _, _ => by
    rw [List.foldlM]
    congr 1
    apply List.map_congr_left
    intro x _
    rw [mergeSpecCol, List.append_nil]
  | t :: ts, schema, g, hnd, hne => by
    have htne := hne t (List.mem_cons_self t ts)
    obtain ⟨p, rest, rfl⟩ : ∃ p rest, t = p :: rest := by
      cases t with
      | nil => exact absurd rfl htne
      | cons p rest => exact ⟨p, rest, rfl⟩
    have hrc : rowCountOf (p :: rest) = some ((rowCountOf (p :: rest)).getD 0) := rfl
    rw [List.foldlM, mergeStep_spec schema g (p :: rest) _ hrc hnd]
    rw [Option.bind_eq_bind, Option.some_bind]
    rw [mergeTables_fold_spec ts schema _ hnd
      (fun u hu => hne u (List.mem_cons_of_mem _ hu))]
    congr 1
    apply List.map_congr_left
    intro x _
    rw [mergeSpecCol, List.append_assoc]

theorem colContrib_length (t : Table) (c : String)
    (hunif : ∀ p ∈ t, p.2.length = (rowCountOf t).getD 0) :
    (colContrib t ((rowCountOf t).getD 0) c).length = (rowCountOf t).getD 0 := by
  rw [colContrib]
  cases hl : lookupCol t c with
  | none => exact List.length_replicate _ _
  | some vs =>
    rw [lookupCol] at hl
    cases hf : t.find? (fun p => p.1 = c) with
    | none => rw [hf] at hl; exact absurd hl (by simp)
    | some q =>
      rw [hf] at hl
      have hq : q ∈ t := List.mem_of_find?_eq_some hf
      have hv : q.2 = vs := by simpa using hl
      rw [← hv]
      exact hunif q hq

theorem mergeSpecCol_length :
    ∀ (tables : List Table) (c : String),
      (∀ t ∈ tables, ∀ p ∈ t, p.2.length = (rowCountOf t).getD 0) →
      (mergeSpecCol tables c).length =
        (tables.map (fun t => (rowCountOf t).getD 0)).sum
  | [], _, _ => rfl
  | t :: ts, c, hunif => by
    rw [mergeSpecCol, List.length_append,
      colContrib_length t c (hunif t (List.mem_cons_self t ts)),
      mergeSpecCol_length ts c (fun u hu => hunif u (List.mem_cons_of_mem t hu)),
      List.map_cons, List.sum_cons]

/-- Claim C3: with a duplicate-free schema, nonempty input tables and
uniform column lengths within each table, the merge loop returns the
table that maps each schema column, in schema order, to the concatenation
over datasets in input order of that dataset's values for the column when
present and of `row_count` fillers otherwise (`filler`: empty string for
`D`-prefixed names, integer zero for the rest); consequently every merged
column's length is the sum of the datasets' row counts. -/
theorem merge_backfill_concat (tables : List Table) (schema : List String)
    (hnd : schema.Nodup) (hne : ∀ t ∈ tables, t ≠ [])
    (hunif : ∀ t ∈ tables, ∀ p ∈ t, p.2.length = (rowCountOf t).getD 0) :
    mergeTables tables schema =
      some (schema.map (fun c => (c, mergeSpecCol tables c))) ∧
    ∀ c, (mergeSpecCol tables c).length =
      (tables.map (fun t => (rowCountOf t).getD 0)).sum := by
  constructor
  · rw [mergeTables, emptyTable, dedup1_eq_self schema hnd]
    have hshape : schema.map (fun c => (c, ([] : List Cell))) =
        schema.map (fun x => (x, (fun _ => ([] : List Cell)) x)) := rfl
    rw [hshape, mergeTables_fold_spec tables schema _ hnd hne]
    rfl
  · intro c
    exact mergeSpecCol_length tables c hunif

/-- Witness of C3 at the concrete tables `{D1: [a]}` and `{M1: [7, 9]}`
with schema `[D1, M1]`. -/
theorem merge_backfill_concat_witness :
    mergeTables [[("D1", [Cell.str "a"])], [("M1", [Cell.int 7, Cell.int 9])]]
        ["D1", "M1"] =
      some (["D1", "M1"].map (fun c =>
        (c, mergeSpecCol [[("D1", [Cell.str "a"])],
          [("M1", [Cell.int 7, Cell.int 9])]] c))) ∧
    ∀ c, (mergeSpecCol [[("D1", [Cell.str "a"])],
        [("M1", [Cell.int 7, Cell.int 9])]] c).length =
      ([[("D1", [Cell.str "a"])], [("M1", [Cell.int 7, Cell.int 9])]].map
        (fun t => (rowCountOf t).getD 0)).sum :=
  merge_backfill_concat
    [[("D1", [Cell.str "a"])], [("M1", [Cell.int 7, Cell.int 9])]]
    ["D1", "M1"] (by decide) (by decide) (by decide)

/-- Elementwise addition of an integer vector into an accumulator;
accumulator entries beyond the vector are unchanged, vector entries
beyond the accumulator are dropped (in the fill loop that overhang is the
`IndexError` case, never reached on success). -/
def padAdd : List Int → List Int → List Int
  | acc, [] => acc
  | [], _ :: _ => []
  | a :: acc, v :: vs => (a + v) :: padAdd acc vs

/-- Accumulate the measure slices of a list of rows into an accumulator,
in row order. -/
def fillAcc (acc : List Int) (ps : List (List Cell)) : List Int :=
  ps.foldl (fun a v => padAdd a (v.map cellIntD)) acc

/-- The aggregated measure vector of one group: the elementwise sum,
starting from an all-zero accumulator of length `vc`, of the measure
slices (cells past index `ic`) of the rows whose key slice (first `ic`
cells) equals `k`. -/
def groupSum (ic vc : Nat) (rows : List (List Cell)) (k : List Cell) : List Int :=
  fillAcc (List.replicate vc 0)
    ((rows.filter (fun r => decide (r.take ic = k))).map (fun r => r.drop ic))

/-- Addition of a vector into an accumulator starting at position `i`
(the fill loop's enumerate indices are consecutive from `i`). -/
def setAddFrom (acc : List Int) (i : Nat) (vals : List Int) : List Int :=
  acc.take i ++ padAdd (acc.drop i) vals

theorem padAdd_nil : ∀ acc : List Int, padAdd acc [] = acc
  | [] => rfl
  | _ :: _ => rfl

theorem padAdd_length : ∀ acc vs : List Int, (padAdd acc vs).length = acc.length
  | _, [] => by rw [padAdd_nil]
  | [], _ :: _ => rfl
  | a :: acc, v :: vs => by
    rw [padAdd, List.length_cons, List.length_cons, padAdd_length acc vs]

theorem padAdd_getD : ∀ (acc vs : List Int) (j : Nat), vs.length ≤ acc.length →
    (padAdd acc vs).getD j 0 = acc.getD j 0 + vs.getD j 0
  | acc, [], j, _ => by
    rw [padAdd_nil]
    cases acc with
    | nil => rfl
    | cons a rest => cases j <;> simp [List.getD]
  | [], v :: vs, _, h => by simp at h
  | a :: acc, v :: vs, j, h => by
    rw [padAdd]
    cases j with
    | zero => rfl
    | succ j2 =>
      simp only [List.getD_cons_succ]
      exact padAdd_getD acc vs j2 (Nat.le_of_succ_le_succ h)

theorem padAdd_zeros : ∀ (l : List Int) (n : Nat), l.length = n →
    padAdd (List.replicate n 0) l = l
  | [], n, h => by
    rw [padAdd_nil]
    rw [List.length] at h
    rw [← h]
    rfl
  | v :: vs, n, h => by
    cases n with
    | zero => simp at h
    | succ n2 =>
      rw [List.replicate_succ, padAdd, Int.zero_add,
        padAdd_zeros vs n2 (by simpa using h)]

theorem fillAcc_nil (acc : List Int) : fillAcc acc [] = acc := rfl

theorem fillAcc_cons (acc : List Int) (v : List Cell) (ps : List (List Cell)) :
    fillAcc acc (v :: ps) = fillAcc (padAdd acc (v.map cellIntD)) ps := rfl

theorem fillAcc_length : ∀ (ps : List (List Cell)) (acc : List Int),
    (fillAcc acc ps).length = acc.length
  | [], _ => rfl
  | v :: ps, acc => by
    rw [fillAcc_cons, fillAcc_length ps _, padAdd_length]

theorem fillAcc_getD : ∀ (ps : List (List Cell)) (acc : List Int) (j : Nat),
    (∀ v ∈ ps, v.length ≤ acc.length) →
    (fillAcc acc ps).getD j 0 =
      acc.getD j 0 + (ps.map (fun v => (v.map cellIntD).getD j 0)).sum
  | [], acc, j, _ => by
    rw [fillAcc_nil, List.map_nil, List.sum_nil, Int.add_zero]
  | v :: ps, acc, j, hfit => by
    rw [fillAcc_cons, List.map_cons, List.sum_cons,
      fillAcc_getD ps _ j (fun u hu => by
        rw [padAdd_length]
        exact hfit u (List.mem_cons_of_mem v hu)),
      padAdd_getD acc _ j (by
        rw [List.length_map]
        exact hfit v (List.mem_cons_self v ps)),
      Int.add_assoc]

theorem groupSum_length (ic vc : Nat) (rows : List (List Cell)) (k : List Cell) :
    (groupSum ic vc rows k).length = vc := by
  rw [groupSum, fillAcc_length, List.length_replicate]

theorem getD_replicate_zero (n j : Nat) :
    (List.replicate n (0 : Int)).getD j 0 = 0 := by
  rw [List.getD_eq_getElem?_getD, List.getElem?_replicate]
  by_cases h : j < n
  · rw [if_pos h]; rfl
  · rw [if_neg h]; rfl

theorem int_cells_roundtrip : ∀ l : List Cell,
    (∀ c ∈ l, ∃ n : Int, c = Cell.int n) → (l.map cellIntD).map Cell.int = l
  | [], _ => rfl
  | c :: rest, h => by
    obtain ⟨n, rfl⟩ := h c (List.mem_cons_self c rest)
    rw [List.map_cons, List.map_cons,
      int_cells_roundtrip rest (fun d hd => h d (List.mem_cons_of_mem _ hd))]
    rfl

theorem map_int_roundtrip (l : List Int) : (l.map Cell.int).map cellIntD = l := by
  rw [List.map_map]
  have h : (cellIntD ∘ Cell.int) = id := by
    funext n
    rfl
  rw [h, List.map_id]

theorem listAddAt_int (li : List Int) (idx : Nat) (n : Int) (hidx : idx < li.length) :
    listAddAt (li.map Cell.int) idx (Cell.int n) =
      some ((li.set idx (li.getD idx 0 + n)).map Cell.int) := by
  have hval : (li.map Cell.int)[idx]? = some (Cell.int (li.getD idx 0)) := by
    rw [List.getElem?_map, List.getElem?_eq_getElem hidx, Option.map_some',
      List.getD_eq_getElem li 0 hidx]
  simp only [listAddAt, hval, cellAdd, Option.map_some']
  rw [List.map_set]

theorem update_keys_eq (ds : List (List Cell × List Int)) (k : List Cell)
    (f : List Cell × List Int → List Int) :
    ((ds.map (fun q => if q.1 = k then (q.1, f q) else q)).map Prod.fst) =
      ds.map Prod.fst := by
  rw [List.map_map]
  apply List.map_congr_left
  intro q _
  by_cases h : q.1 = k <;> simp [h]

theorem dictAdd_int :
    ∀ (ds : List (List Cell × List Int)) (k : List Cell) (idx : Nat) (n : Int),
      (ds.map Prod.fst).Nodup →
      k ∈ ds.map Prod.fst →
      (∀ q ∈ ds, q.1 = k → idx < q.2.length) →
      dictAdd (ds.map (fun q => (q.1, q.2.map Cell.int))) k idx (Cell.int n) =
        some ((ds.map (fun q => if q.1 = k
          then (q.1, q.2.set idx (q.2.getD idx 0 + n)) else q)).map
            (fun q => (q.1, q.2.map Cell.int)))
  | [], _, _, _, _, hk, _ => absurd hk (List.not_mem_nil _)
  | q :: ds, k, idx, n, hnd, hk, hfit => by
    rw [List.map_cons] at hnd hk
    by_cases hq : q.1 = k
    · rw [List.map_cons, dictAdd, if_pos hq,
        listAddAt_int q.2 idx n (hfit q (List.mem_cons_self q ds) hq),
        Option.map_some']
      rw [List.map_cons, List.map_cons, if_pos hq]
      have hrest : ds.map (fun q2 => if q2.1 = k
          then (q2.1, q2.2.set idx (q2.2.getD idx 0 + n)) else q2) = ds := by
        conv_rhs => rw [← List.map_id ds]
        apply List.map_congr_left
        intro q2 hq2
        have hne : q2.1 ≠ k := by
          intro he
          have hdup := (List.nodup_cons.mp hnd).1
          exact hdup (hq ▸ he ▸ (List.mem_map_of_mem Prod.fst hq2) : q.1 ∈ ds.map Prod.fst)
        rw [if_neg hne]
        rfl
      rw [hrest]
    · rw [List.map_cons, dictAdd, if_neg (fun he => hq he)]
      rw [dictAdd_int ds k idx n (List.nodup_cons.mp hnd).2
        (by
          rcases List.mem_cons.mp hk with he | hm
          · exact absurd he.symm hq
          · exact hm)
        (fun q2 hq2 => hfit q2 (List.mem_cons_of_mem q hq2)),
        Option.map_some']
      rw [List.map_cons, List.map_cons, if_neg hq]

theorem setAddFrom_nil (acc : List Int) (i : Nat) : setAddFrom acc i [] = acc := by
  rw [setAddFrom, padAdd_nil, List.take_append_drop]

theorem setAddFrom_zero (acc : List Int) (vals : List Int) :
    setAddFrom acc 0 vals = padAdd acc vals := by
  rw [setAddFrom, List.take_zero, List.drop_zero, List.nil_append]

theorem setAddFrom_step : ∀ (acc : List Int) (i : Nat) (v : Int) (vals : List Int),
    i < acc.length →
    setAddFrom acc i (v :: vals) =
      setAddFrom (acc.set i (acc.getD i 0 + v)) (i + 1) vals
  | [], i, _, _, hi => by simp at hi
  | a :: acc, 0, v, vals, _ => by
    rw [setAddFrom_zero, List.set_cons_zero, setAddFrom, padAdd]
    rw [List.take_succ_cons, List.take_zero, List.drop_succ_cons, List.drop_zero]
    rfl
  | a :: acc, i + 1, v, vals, hi => by
    rw [setAddFrom, List.take_succ_cons, List.drop_succ_cons,
      List.cons_append, List.set_cons_succ, List.getD_cons_succ]
    rw [setAddFrom, List.take_succ_cons, List.drop_succ_cons, List.cons_append]
    congr 1
    have h2 := setAddFrom_step acc i v vals (Nat.lt_of_succ_lt_succ hi)
    rw [setAddFrom, setAddFrom] at h2
    exact h2

theorem dict_fill_enumFrom :
    ∀ (vals : List Int) (i : Nat) (ds : List (List Cell × List Int)) (k : List Cell),
      (ds.map Prod.fst).Nodup →
      k ∈ ds.map Prod.fst →
      (∀ q ∈ ds, q.1 = k → i + vals.length ≤ q.2.length) →
      (List.enumFrom i (vals.map Cell.int)).foldlM
          (fun acc p => dictAdd acc k p.1 p.2)
          (ds.map (fun q => (q.1, q.2.map Cell.int))) =
        some ((ds.map (fun q => if q.1 = k
          then (q.1, setAddFrom q.2 i vals) else q)).map
            (fun q => (q.1, q.2.map Cell.int)))
  | [], i, ds, k, _, _, _ => by
    rw [List.map_nil, List.enumFrom_nil, List.foldlM]
    congr 1
    have h : ds.map (fun q => if q.1 = k then (q.1, setAddFrom q.2 i []) else q)
        = ds := by
      conv_rhs => rw [← List.map_id ds]
      apply List.map_congr_left
      intro q _
      by_cases hq : q.1 = k
      · rw [if_pos hq, setAddFrom_nil]
        rfl
      · rw [if_neg hq]
        rfl
    rw [h]
  | v :: vals, i, ds, k, hnd, hk, hfit => by
    rw [List.map_cons, List.enumFrom_cons, List.foldlM]
    rw [dictAdd_int ds k i v hnd hk (fun q hq hqk => by
      have := hfit q hq hqk
      simp only [List.length_cons] at this
      omega)]
    rw [Option.bind_eq_bind, Option.some_bind]
    rw [dict_fill_enumFrom vals (i + 1)
      (ds.map (fun q => if q.1 = k then (q.1, q.2.set i (q.2.getD i 0 + v)) else q)) k
      (by rw [update_keys_eq]; exact hnd)
      (by rw [update_keys_eq]; exact hk)
      (by
        intro q2 hq2 hq2k
        obtain ⟨q, hq, hq2eq⟩ := List.mem_map.mp hq2
        by_cases hqk : q.1 = k
        · rw [if_pos hqk] at hq2eq
          rw [← hq2eq]
          simp only [List.length_set]
          have := hfit q hq hqk
          simp only [List.length_cons] at this
          omega
        · rw [if_neg hqk] at hq2eq
          rw [← hq2eq] at hq2k
          exact absurd hq2k hqk)]
    have hcomp : (ds.map (fun q => if q.1 = k
          then (q.1, q.2.set i (q.2.getD i 0 + v)) else q)).map
          (fun q => if q.1 = k then (q.1, setAddFrom q.2 (i + 1) vals) else q) =
        ds.map (fun q => if q.1 = k
          then (q.1, setAddFrom q.2 i (v :: vals)) else q) := by
      rw [List.map_map]
      apply List.map_congr_left
      intro q hq
      by_cases hqk : q.1 = k
      · have hlt : i < q.2.length := by
          have h3 := hfit q hq hqk
          simp only [List.length_cons] at h3
          omega
        simp only [Function.comp_apply, if_pos hqk]
        rw [setAddFrom_step q.2 i v vals hlt]
      · simp only [Function.comp_apply, if_neg hqk]
    rw [hcomp]

theorem addRow_int (ds : List (List Cell × List Int)) (k : List Cell) (iv : List Int)
    (hnd : (ds.map Prod.fst).Nodup) (hk : k ∈ ds.map Prod.fst)
    (hfit : ∀ q ∈ ds, q.1 = k → iv.length ≤ q.2.length) :
    addRow (ds.map (fun q => (q.1, q.2.map Cell.int))) k (iv.map Cell.int) =
      some ((ds.map (fun q => if q.1 = k then (q.1, padAdd q.2 iv) else q)).map
        (fun q => (q.1, q.2.map Cell.int))) := by
  rw [addRow]
  have henum : (iv.map Cell.int).enum = List.enumFrom 0 (iv.map Cell.int) := rfl
  rw [henum, dict_fill_enumFrom iv 0 ds k hnd hk (fun q hq hqk => by
    rw [Nat.zero_add]
    exact hfit q hq hqk)]
  have hset : ds.map (fun q => if q.1 = k then (q.1, setAddFrom q.2 0 iv) else q) =
      ds.map (fun q => if q.1 = k then (q.1, padAdd q.2 iv) else q) := by
    apply List.map_congr_left
    intro q _
    by_cases hqk : q.1 = k
    · rw [if_pos hqk, if_pos hqk, setAddFrom_zero]
    · rw [if_neg hqk, if_neg hqk]
  rw [hset]

theorem fold_fill_spec :
    ∀ (L : List (List Cell × List Cell)) (ds : List (List Cell × List Int)),
      (ds.map Prod.fst).Nodup →
      (∀ p ∈ L, p.1 ∈ ds.map Prod.fst) →
      (∀ p ∈ L, ∀ c ∈ p.2, ∃ n : Int, c = Cell.int n) →
      (∀ p ∈ L, ∀ q ∈ ds, q.1 = p.1 → p.2.length ≤ q.2.length) →
      L.foldlM (fun d p => addRow d p.1 p.2)
          (ds.map (fun q => (q.1, q.2.map Cell.int))) =
        some ((ds.map (fun q => (q.1,
          fillAcc q.2 ((L.filter (fun p => decide (p.1 = q.1))).map Prod.snd)))).map
            (fun q => (q.1, q.2.map Cell.int)))
  | [], ds, _, _, _, _ => by
    rw [List.foldlM]
    congr 1
    have h : ds.map (fun q => (q.1,
        fillAcc q.2 (([] : List (List Cell × List Cell)).filter
          (fun p => decide (p.1 = q.1)) |>.map Prod.snd))) = ds := by
      conv_rhs => rw [← List.map_id ds]
      apply List.map_congr_left
      intro q _
      rw [List.filter_nil, List.map_nil, fillAcc_nil]
      rfl
    rw [h]
  | p :: L, ds, hnd, hkeys, hvals, hfit => by
    rw [List.foldlM]
    have hiv : p.2 = (p.2.map cellIntD).map Cell.int :=
      (int_cells_roundtrip p.2 (hvals p (List.mem_cons_self p L))).symm
    rw [hiv, addRow_int ds p.1 (p.2.map cellIntD) hnd
      (hkeys p (List.mem_cons_self p L))
      (fun q hq hqp => by
        rw [List.length_map]
        exact hfit p (List.mem_cons_self p L) q hq hqp)]
    rw [Option.bind_eq_bind, Option.some_bind]
    rw [fold_fill_spec L
      (ds.map (fun q => if q.1 = p.1 then (q.1, padAdd q.2 (p.2.map cellIntD)) else q))
      (by rw [update_keys_eq]; exact hnd)
      (by
        intro p2 hp2
        rw [update_keys_eq]
        exact hkeys p2 (List.mem_cons_of_mem p hp2))
      (fun p2 hp2 => hvals p2 (List.mem_cons_of_mem p hp2))
      (by
        intro p2 hp2 q2 hq2 hq2p
        obtain ⟨q, hq, hqeq⟩ := List.mem_map.mp hq2
        by_cases hqp : q.1 = p.1
        · rw [if_pos hqp] at hqeq
          rw [← hqeq] at hq2p ⊢
          simp only [padAdd_length]
          exact hfit p2 (List.mem_cons_of_mem p hp2) q hq hq2p
        · rw [if_neg hqp] at hqeq
          rw [← hqeq] at hq2p ⊢
          exact hfit p2 (List.mem_cons_of_mem p hp2) q hq hq2p)]
    have hcomp : (ds.map (fun q => if q.1 = p.1
          then (q.1, padAdd q.2 (p.2.map cellIntD)) else q)).map
          (fun q => (q.1,
            fillAcc q.2 ((L.filter (fun p2 => decide (p2.1 = q.1))).map Prod.snd))) =
        ds.map (fun q => (q.1,
          fillAcc q.2 (((p :: L).filter (fun p2 => decide (p2.1 = q.1))).map
            Prod.snd))) := by
      rw [List.map_map]
      apply List.map_congr_left
      intro q hq
      by_cases hqp : q.1 = p.1
      · have hpq : decide (p.1 = q.1) = true := decide_eq_true hqp.symm
        simp only [Function.comp_apply, if_pos hqp]
        rw [List.filter_cons, if_pos hpq, List.map_cons, fillAcc_cons]
      · have hpq : decide (p.1 = q.1) = false :=
          decide_eq_false (fun he => hqp he.symm)
        simp only [Function.comp_apply, if_neg hqp]
        rw [List.filter_cons, if_neg (by rw [hpq]; exact Bool.false_ne_true)]
    rw [hcomp]

theorem splitted_filter_eq (ic : Nat) (rows : List (List Cell)) (k : List Cell) :
    ((rows.map (fun r => (r.take ic, r.drop ic))).filter
      (fun p => decide (p.1 = k))).map Prod.snd =
    (rows.filter (fun r => decide (r.take ic = k))).map (fun r => r.drop ic) := by
  rw [List.filter_map, List.map_map]
  rfl

theorem sortedKeys_nodup (ic : Nat) (rows : List (List Cell)) :
    (((dedup1 (rows.map (fun r => r.take ic))).insertionSort keyR).map id).Nodup := by
  rw [List.map_id]
  exact ((List.perm_insertionSort keyR _).nodup_iff).mpr (nodup_dedup1 _)

theorem group_values_spec (header : List Cell) (names : List String)
    (rows : List (List Cell))
    (hh : optMapM cellStr? header = some names) (hne : rows ≠ [])
    (hfit : ∀ r ∈ rows, r.length ≤ header.length)
    (hmeas : ∀ r ∈ rows, ∀ c ∈ r.drop (indexCountOf names),
      ∃ n : Int, c = Cell.int n) :
    group_values (header :: rows) =
      some (header ::
        ((dedup1 (rows.map (fun r => r.take (indexCountOf names)))).insertionSort
          keyR).map
          (fun k => k ++ (groupSum (indexCountOf names)
            (header.length - indexCountOf names) rows k).map Cell.int)) := by
  obtain ⟨r0, rest, rfl⟩ : ∃ r0 rest, rows = r0 :: rest := by
    cases rows with
    | nil => exact absurd rfl hne
    | cons r0 rest => exact ⟨r0, rest, rfl⟩
  simp only [group_values, hh]
  have hinit : (((dedup1 ((r0 :: rest).map
        (fun r => r.take (indexCountOf names)))).insertionSort keyR).map
        (fun k => (k, List.replicate (header.length - indexCountOf names)
          (Cell.int 0)))) =
      (((dedup1 ((r0 :: rest).map
        (fun r => r.take (indexCountOf names)))).insertionSort keyR).map
        (fun k => (k, List.replicate (header.length - indexCountOf names)
          (0 : Int)))).map (fun q => (q.1, q.2.map Cell.int)) := by
    rw [List.map_map]
    apply List.map_congr_left
    intro k _
    simp only [Function.comp_apply, List.map_replicate]
  have hkmap : List.map (fun p : List Cell × List Cell => p.1)
      (List.map (fun r => (List.take (indexCountOf names) r,
        List.drop (indexCountOf names) r)) (r0 :: rest)) =
    List.map (fun r => List.take (indexCountOf names) r) (r0 :: rest) := by
    rw [List.map_map]
    rfl
  rw [hkmap, hinit]
  rw [fold_fill_spec ((r0 :: rest).map (fun r =>
      (r.take (indexCountOf names), r.drop (indexCountOf names))))
    (((dedup1 ((r0 :: rest).map (fun r => r.take (indexCountOf names)))).insertionSort
      keyR).map (fun k => (k, List.replicate (header.length - indexCountOf names)
        (0 : Int))))
    (by
      rw [List.map_map]
      have hid : (Prod.fst ∘ fun k : List Cell =>
          (k, List.replicate (header.length - indexCountOf names) (0 : Int))) =
          id := by
        funext k
        rfl
      rw [hid, List.map_id]
      exact ((List.perm_insertionSort keyR _).nodup_iff).mpr (nodup_dedup1 _))
    (by
      intro p hp
      obtain ⟨r, hr, rfl⟩ := List.mem_map.mp hp
      rw [List.map_map]
      have hid : (Prod.fst ∘ fun k : List Cell =>
          (k, List.replicate (header.length - indexCountOf names) (0 : Int))) =
          id := by
        funext k
        rfl
      rw [hid, List.map_id, List.mem_insertionSort, mem_dedup1]
      exact List.mem_map_of_mem _ hr)
    (by
      intro p hp
      obtain ⟨r, hr, rfl⟩ := List.mem_map.mp hp
      exact hmeas r hr)
    (by
      intro p hp q hq _
      obtain ⟨r, hr, rfl⟩ := List.mem_map.mp hp
      obtain ⟨k, _, rfl⟩ := List.mem_map.mp hq
      simp only [List.length_replicate, List.length_drop]
      exact Nat.sub_le_sub_right (hfit r hr) _)]
  rw [Option.map_some']
  congr 1
  congr 1
  rw [List.map_map, List.map_map, List.map_map]
  apply List.map_congr_left
  intro k _
  simp only [Function.comp_apply]
  congr 1
  rw [groupSum, ← splitted_filter_eq]

theorem sum_map_filter_split {α : Type} (f : α → Int) (p : α → Bool) :
    ∀ L : List α,
      ((L.filter p).map f).sum + ((L.filter (fun a => !(p a))).map f).sum =
        (L.map f).sum
  | [] => rfl
  | a :: L => by
    cases hp : p a with
    | true =>
      rw [List.filter_cons, List.filter_cons, hp, if_pos rfl]
      rw [show (!true) = false from rfl, if_neg Bool.false_ne_true]
      rw [List.map_cons, List.sum_cons, List.map_cons, List.sum_cons,
        Int.add_assoc, sum_map_filter_split f p L]
    | false =>
      rw [List.filter_cons, List.filter_cons, hp, if_neg Bool.false_ne_true]
      rw [show (!false) = true from rfl, if_pos rfl]
      rw [List.map_cons, List.sum_cons, List.map_cons, List.sum_cons]
      rw [← sum_map_filter_split f p L]
      ring

theorem filter_of_filter_not {α : Type} (q p : α → Bool)
    (himp : ∀ a, q a = true → p a = false) :
    ∀ L : List α, (L.filter (fun a => !(p a))).filter q = L.filter q
  | [] => rfl
  | a :: L => by
    cases hq : q a with
    | true =>
      have hp := himp a hq
      rw [List.filter_cons, hp]
      rw [show (!false) = true from rfl, if_pos rfl]
      rw [List.filter_cons, hq, if_pos rfl, List.filter_cons, hq, if_pos rfl,
        filter_of_filter_not q p himp L]
    | false =>
      cases hp : p a with
      | true =>
        rw [List.filter_cons, hp]
        rw [show (!true) = false from rfl, if_neg Bool.false_ne_true]
        rw [List.filter_cons, hq, if_neg Bool.false_ne_true,
          filter_of_filter_not q p himp L]
      | false =>
        rw [List.filter_cons, hp]
        rw [show (!false) = true from rfl, if_pos rfl]
        rw [List.filter_cons, hq, if_neg Bool.false_ne_true,
          List.filter_cons, hq, if_neg Bool.false_ne_true,
          filter_of_filter_not q p himp L]

theorem sum_over_partition {α κ : Type} [DecidableEq κ] (key : α → κ) (f : α → Int) :
    ∀ (K : List κ) (L : List α), K.Nodup → (∀ a ∈ L, key a ∈ K) →
      (K.map (fun k => ((L.filter (fun a => decide (key a = k))).map f).sum)).sum
        = (L.map f).sum
  | [], L, _, hcov => by
    cases L with
    | nil => rfl
    | cons a L2 => exact absurd (hcov a (List.mem_cons_self a L2)) (List.not_mem_nil _)
  | k :: K, L, hnd, hcov => by
    rw [List.map_cons, List.sum_cons]
    have hK : (K.map (fun k2 =>
        ((L.filter (fun a => decide (key a = k2))).map f).sum)).sum =
        (K.map (fun k2 =>
          (((L.filter (fun a => !(decide (key a = k)))).filter
            (fun a => decide (key a = k2))).map f).sum)).sum := by
      congr 1
      apply List.map_congr_left
      intro k2 hk2
      rw [filter_of_filter_not _ _ (fun a ha => by
        have hne : k2 ≠ k := fun he => (List.nodup_cons.mp hnd).1 (he ▸ hk2)
        have hak2 : key a = k2 := of_decide_eq_true ha
        exact decide_eq_false (fun hak => hne (hak ▸ hak2.symm ▸ rfl)) ) L]
    rw [hK, sum_over_partition key f K (L.filter (fun a => !(decide (key a = k))))
      (List.nodup_cons.mp hnd).2
      (by
        intro a ha
        have hmem := (List.mem_filter.mp ha).1
        have hnk := (List.mem_filter.mp ha).2
        rcases List.mem_cons.mp (hcov a hmem) with he | hm
        · rw [he] at hnk
          simp at hnk
        · exact hm)]
    exact sum_map_filter_split f (fun a => decide (key a = k)) L

theorem getD_map_cellIntD (l : List Cell) (j : Nat) :
    (l.map cellIntD).getD j 0 = cellIntD (l.getD j (Cell.int 0)) := by
  rw [List.getD_eq_getElem?_getD, List.getD_eq_getElem?_getD, List.getElem?_map]
  cases l[j]? <;> rfl

theorem getD_map_int (l : List Int) (j : Nat) :
    (l.map Cell.int).getD j (Cell.int 0) = Cell.int (l.getD j 0) := by
  rw [List.getD_eq_getElem?_getD, List.getD_eq_getElem?_getD, List.getElem?_map]
  cases l[j]? <;> rfl

theorem getD_drop_cell (l : List Cell) (i j : Nat) :
    (l.drop i).getD j (Cell.int 0) = l.getD (i + j) (Cell.int 0) := by
  rw [List.getD_eq_getElem?_getD, List.getD_eq_getElem?_getD, List.getElem?_drop]

theorem getD_append_at (k l : List Cell) (ic j : Nat) (hk : k.length = ic) :
    (k ++ l).getD (ic + j) (Cell.int 0) = l.getD j (Cell.int 0) := by
  rw [List.getD_eq_getElem?_getD, List.getD_eq_getElem?_getD,
    List.getElem?_append_right (by omega), hk, Nat.add_sub_cancel_left]

/-- Test of whether a cell is a Python `str`. -/
def cellIsStr : Cell → Bool
  | Cell.str _ => true
  | Cell.int _ => false

/-- Test of whether a cell is a Python `int`. -/
def cellIsInt : Cell → Bool
  | Cell.int _ => true
  | Cell.str _ => false

theorem cellIsInt_iff (c : Cell) : cellIsInt c = true ↔ ∃ n : Int, c = Cell.int n := by
  cases c with
  | str s =>
    constructor
    · intro h; exact absurd h (by rw [cellIsInt]; exact Bool.false_ne_true)
    · rintro ⟨n, hn⟩; exact absurd hn (by intro he; exact Cell.noConfusion he)
  | int n =>
    constructor
    · intro _; exact ⟨n, rfl⟩
    · intro _; rfl

theorem key_length_of_mem (ic : Nat) (rows : List (List Cell)) (k : List Cell)
    (hic : ∀ r ∈ rows, ic ≤ r.length)
    (hk : k ∈ (dedup1 (rows.map (fun r => r.take ic))).insertionSort keyR) :
    k.length = ic := by
  rw [List.mem_insertionSort, mem_dedup1] at hk
  obtain ⟨r, hr, rfl⟩ := List.mem_map.mp hk
  rw [List.length_take]
  exact Nat.min_eq_left (hic r hr)

/-- Claim C2: on a well-formed `RowMatrix` (string header, uniform row
lengths, string key cells, integer measure cells) with at least one data
row, `group_values` succeeds; for every GroupKey occurring in the data
rows the output carries the row `key ++ sums`, where `sums` is the
elementwise sum (from an all-zero accumulator) of the measure vectors of
all the rows sharing that key; consequently, for every measure column,
the total over all output data rows equals the total over all input data
rows. -/
theorem group_values_sum_invariant (header : List Cell) (names : List String)
    (rows : List (List Cell))
    (hh : optMapM cellStr? header = some names) (hne : rows ≠ [])
    (hlen : ∀ r ∈ rows, r.length = header.length)
    (hkey : ∀ r ∈ rows, ∀ c ∈ r.take (indexCountOf names), cellIsStr c = true)
    (hmeas : ∀ r ∈ rows, ∀ c ∈ r.drop (indexCountOf names), cellIsInt c = true) :
    ∃ out, group_values (header :: rows) = some out ∧
      (∀ r ∈ rows,
        (r.take (indexCountOf names) ++
          (groupSum (indexCountOf names) (header.length - indexCountOf names)
            rows (r.take (indexCountOf names))).map Cell.int) ∈ out.tail) ∧
      (∀ j : Nat,
        ((out.tail).map
          (fun r2 => cellIntD (r2.getD (indexCountOf names + j) (Cell.int 0)))).sum =
        (rows.map
          (fun r2 => cellIntD (r2.getD (indexCountOf names + j) (Cell.int 0)))).sum) := by
  have hfit : ∀ r ∈ rows, r.length ≤ header.length := fun r hr => (hlen r hr).le
  have hmeas2 : ∀ r ∈ rows, ∀ c ∈ r.drop (indexCountOf names),
      ∃ n : Int, c = Cell.int n :=
    fun r hr c hc => (cellIsInt_iff c).mp (hmeas r hr c hc)
  have hic : indexCountOf names ≤ header.length := by
    have hlen2 : header.length = names.length :=
      List.Forall₂.length_eq ((optMapM_some_iff cellStr? header names).mp hh)
    rw [indexCountOf, hlen2]
    exact List.length_filter_le _ _
  refine ⟨_, group_values_spec header names rows hh hne hfit hmeas2, ?_, ?_⟩
  · intro r hr
    rw [List.tail_cons]
    apply List.mem_map_of_mem
    rw [List.mem_insertionSort, mem_dedup1]
    exact List.mem_map_of_mem _ hr
  · intro j
    rw [List.tail_cons, List.map_map]
    have hpt : ∀ k ∈ (dedup1 (rows.map
        (fun r => r.take (indexCountOf names)))).insertionSort keyR,
        ((fun r2 => cellIntD (r2.getD (indexCountOf names + j) (Cell.int 0))) ∘
          (fun k => k ++ (groupSum (indexCountOf names)
            (header.length - indexCountOf names) rows k).map Cell.int)) k =
        ((rows.filter (fun r => decide (r.take (indexCountOf names) = k))).map
          (fun r2 => cellIntD (r2.getD (indexCountOf names + j) (Cell.int 0)))).sum := by
      intro k hk
      have hkl : k.length = indexCountOf names :=
        key_length_of_mem _ rows k (fun r hr => (hlen r hr).symm ▸ hic) hk
      simp only [Function.comp_apply]
      rw [getD_append_at _ _ _ j hkl, getD_map_int]
      simp only [cellIntD]
      rw [groupSum, fillAcc_getD _ _ j (by
        intro v hv
        obtain ⟨r, hr2, rfl⟩ := List.mem_map.mp hv
        rw [List.length_replicate, List.length_drop]
        exact Nat.sub_le_sub_right (hfit r (List.mem_of_mem_filter hr2)) _),
        getD_replicate_zero, Int.zero_add, List.map_map]
      congr 1
      apply List.map_congr_left
      intro r _
      simp only [Function.comp_apply]
      rw [getD_map_cellIntD, getD_drop_cell]
      rfl
    rw [List.map_congr_left hpt]
    exact sum_over_partition (fun r => r.take (indexCountOf names))
      (fun r2 => cellIntD (r2.getD (indexCountOf names + j) (Cell.int 0)))
      _ rows
      (((List.perm_insertionSort keyR _).nodup_iff).mpr (nodup_dedup1 _))
      (fun r hr => by
        rw [List.mem_insertionSort, mem_dedup1]
        exact List.mem_map_of_mem _ hr)

/-- Witness of C2 at the spec's example: rows `[[D1,M1],[x,5],[x,3],[y,2]]`. -/
theorem group_values_sum_invariant_witness :
    ∃ out, group_values [[Cell.str "D1", Cell.str "M1"],
        [Cell.str "x", Cell.int 5], [Cell.str "x", Cell.int 3],
        [Cell.str "y", Cell.int 2]] = some out ∧
      (∀ r ∈ [[Cell.str "x", Cell.int 5], [Cell.str "x", Cell.int 3],
          [Cell.str "y", Cell.int 2]],
        (r.take (indexCountOf ["D1", "M1"]) ++
          (groupSum (indexCountOf ["D1", "M1"])
            ([Cell.str "D1", Cell.str "M1"].length - indexCountOf ["D1", "M1"])
            [[Cell.str "x", Cell.int 5], [Cell.str "x", Cell.int 3],
              [Cell.str "y", Cell.int 2]]
            (r.take (indexCountOf ["D1", "M1"]))).map Cell.int) ∈ out.tail) ∧
      (∀ j : Nat,
        ((out.tail).map (fun r2 =>
          cellIntD (r2.getD (indexCountOf ["D1", "M1"] + j) (Cell.int 0)))).sum =
        ([[Cell.str "x", Cell.int 5], [Cell.str "x", Cell.int 3],
          [Cell.str "y", Cell.int 2]].map (fun r2 =>
          cellIntD (r2.getD (indexCountOf ["D1", "M1"] + j) (Cell.int 0)))).sum) :=
  group_values_sum_invariant [Cell.str "D1", Cell.str "M1"] ["D1", "M1"]
    [[Cell.str "x", Cell.int 5], [Cell.str "x", Cell.int 3], [Cell.str "y", Cell.int 2]]
    (by decide) (by decide) (by decide) (by decide) (by decide)

theorem filter_eq_of_nodup {α : Type} [DecidableEq α] :
    ∀ (S : List α) (k : α), S.Nodup → k ∈ S →
      S.filter (fun x => decide (x = k)) = [k]
  | [], k, _, hk => absurd hk (List.not_mem_nil _)
  | a :: S, k, hnd, hk => by
    by_cases ha : a = k
    · subst ha
      rw [List.filter_cons, if_pos (by simp)]
      have h0 : S.filter (fun x => decide (x = a)) = [] := by
        rw [List.filter_eq_nil_iff]
        intro x hx
        have hne : x ≠ a := fun he => (List.nodup_cons.mp hnd).1 (he ▸ hx)
        simp [hne]
      rw [h0]
    · rw [List.filter_cons, if_neg (by simp [ha])]
      exact filter_eq_of_nodup S k (List.nodup_cons.mp hnd).2
        ((List.mem_cons.mp hk).resolve_left (fun he => ha he.symm))

/-- Claim C8: grouping is idempotent.  On a well-formed `RowMatrix`
(string header, uniform row lengths, string key cells, integer measure
cells), whatever `group_values` returns, applying `group_values` to that
output returns the same output: the output's GroupKeys are unique and
already sorted, so regrouping sums singleton groups. -/
theorem group_values_idempotent (header : List Cell) (names : List String)
    (rows : List (List Cell))
    (hh : optMapM cellStr? header = some names) (hne : rows ≠ [])
    (hlen : ∀ r ∈ rows, r.length = header.length)
    (hkey : ∀ r ∈ rows, ∀ c ∈ r.take (indexCountOf names), cellIsStr c = true)
    (hmeas : ∀ r ∈ rows, ∀ c ∈ r.drop (indexCountOf names), cellIsInt c = true) :
    ∀ out, group_values (header :: rows) = some out →
      group_values out = some out := by
  intro out hout
  have hfit : ∀ r ∈ rows, r.length ≤ header.length := fun r hr => (hlen r hr).le
  have hmeas2 : ∀ r ∈ rows, ∀ c ∈ r.drop (indexCountOf names),
      ∃ n : Int, c = Cell.int n :=
    fun r hr c hc => (cellIsInt_iff c).mp (hmeas r hr c hc)
  have hic : indexCountOf names ≤ header.length := by
    have hlen2 : header.length = names.length :=
      List.Forall₂.length_eq ((optMapM_some_iff cellStr? header names).mp hh)
    rw [indexCountOf, hlen2]
    exact List.length_filter_le _ _
  have hicr : ∀ r ∈ rows, indexCountOf names ≤ r.length :=
    fun r hr => (hlen r hr).symm ▸ hic
  rw [group_values_spec header names rows hh hne hfit hmeas2,
    Option.some_inj] at hout
  subst hout
  have hklen : ∀ k ∈ (dedup1 (rows.map
      (fun r => r.take (indexCountOf names)))).insertionSort keyR,
      k.length = indexCountOf names :=
    fun k hk => key_length_of_mem _ rows k hicr hk
  have hSnd : ((dedup1 (rows.map
      (fun r => r.take (indexCountOf names)))).insertionSort keyR).Nodup :=
    ((List.perm_insertionSort keyR _).nodup_iff).mpr (nodup_dedup1 _)
  have hSne : (dedup1 (rows.map
      (fun r => r.take (indexCountOf names)))).insertionSort keyR ≠ [] := by
    obtain ⟨r0, rest, rfl⟩ : ∃ r0 rest, rows = r0 :: rest := by
      cases rows with
      | nil => exact absurd rfl hne
      | cons r0 rest => exact ⟨r0, rest, rfl⟩
    intro h0
    have hlen0 := congrArg List.length h0
    rw [List.length_insertionSort] at hlen0
    exact dedup1_ne_nil _ _ (List.length_eq_zero.mp hlen0)
  have houtrows_ne : ((dedup1 (rows.map
      (fun r => r.take (indexCountOf names)))).insertionSort keyR).map
      (fun k => k ++ (groupSum (indexCountOf names)
        (header.length - indexCountOf names) rows k).map Cell.int) ≠ [] := by
    intro h0
    exact hSne (List.map_eq_nil_iff.mp h0)
  have hrow_shape : ∀ k ∈ (dedup1 (rows.map
      (fun r => r.take (indexCountOf names)))).insertionSort keyR,
      (k ++ (groupSum (indexCountOf names)
        (header.length - indexCountOf names) rows k).map Cell.int).take
        (indexCountOf names) = k := by
    intro k hk
    exact List.take_left' (hklen k hk)
  have hrow_drop : ∀ k ∈ (dedup1 (rows.map
      (fun r => r.take (indexCountOf names)))).insertionSort keyR,
      (k ++ (groupSum (indexCountOf names)
        (header.length - indexCountOf names) rows k).map Cell.int).drop
        (indexCountOf names) =
        (groupSum (indexCountOf names)
          (header.length - indexCountOf names) rows k).map Cell.int := by
    intro k hk
    exact List.drop_left' (hklen k hk)
  rw [group_values_spec header names _ hh houtrows_ne
    (by
      intro r2 hr2
      obtain ⟨k, hk, rfl⟩ := List.mem_map.mp hr2
      rw [List.length_append, List.length_map, groupSum_length, hklen k hk]
      rw [Nat.add_sub_cancel' hic])
    (by
      intro r2 hr2 c hc
      obtain ⟨k, hk, rfl⟩ := List.mem_map.mp hr2
      rw [hrow_drop k hk] at hc
      obtain ⟨n, _, rfl⟩ := List.mem_map.mp hc
      exact ⟨n, rfl⟩)]
  congr 2
  have hmap_take : (((dedup1 (rows.map
      (fun r => r.take (indexCountOf names)))).insertionSort keyR).map
      (fun k => k ++ (groupSum (indexCountOf names)
        (header.length - indexCountOf names) rows k).map Cell.int)).map
      (fun r => r.take (indexCountOf names)) =
      (dedup1 (rows.map (fun r => r.take (indexCountOf names)))).insertionSort
        keyR := by
    rw [List.map_map]
    conv_rhs => rw [← List.map_id ((dedup1 (rows.map
      (fun r => r.take (indexCountOf names)))).insertionSort keyR)]
    apply List.map_congr_left
    intro k hk
    simp only [Function.comp_apply]
    rw [hrow_shape k hk]
    rfl
  rw [hmap_take, dedup1_eq_self _ hSnd,
    List.Sorted.insertionSort_eq (List.sorted_insertionSort keyR _)]
  apply List.map_congr_left
  intro k hk
  congr 1
  have hfilter : (((dedup1 (rows.map
      (fun r => r.take (indexCountOf names)))).insertionSort keyR).map
      (fun k2 => k2 ++ (groupSum (indexCountOf names)
        (header.length - indexCountOf names) rows k2).map Cell.int)).filter
      (fun r => decide (r.take (indexCountOf names) = k)) =
      [k ++ (groupSum (indexCountOf names)
        (header.length - indexCountOf names) rows k).map Cell.int] := by
    rw [List.filter_map]
    have hcongr : ((dedup1 (rows.map
        (fun r => r.take (indexCountOf names)))).insertionSort keyR).filter
        ((fun r => decide (r.take (indexCountOf names) = k)) ∘
          (fun k2 => k2 ++ (groupSum (indexCountOf names)
            (header.length - indexCountOf names) rows k2).map Cell.int)) =
        ((dedup1 (rows.map
          (fun r => r.take (indexCountOf names)))).insertionSort keyR).filter
          (fun k2 => decide (k2 = k)) := by
      apply List.filter_congr
      intro k2 hk2
      simp only [Function.comp_apply]
      rw [hrow_shape k2 hk2]
    rw [hcongr, filter_eq_of_nodup _ k hSnd hk, List.map_cons, List.map_nil]
  rw [groupSum, hfilter, List.map_cons, List.map_nil]
  rw [hrow_drop k hk, fillAcc_cons, fillAcc_nil, map_int_roundtrip,
    padAdd_zeros _ _ (groupSum_length _ _ _ _)]

/-- Witness of C8: regrouping the grouped spec example
`[[D1,M1],[x,8],[y,2]]` returns it unchanged. -/
theorem group_values_idempotent_witness :
    group_values [[Cell.str "D1", Cell.str "M1"],
        [Cell.str "x", Cell.int 8], [Cell.str "y", Cell.int 2]] =
      some [[Cell.str "D1", Cell.str "M1"],
        [Cell.str "x", Cell.int 8], [Cell.str "y", Cell.int 2]] :=
  group_values_idempotent [Cell.str "D1", Cell.str "M1"] ["D1", "M1"]
    [[Cell.str "x", Cell.int 5], [Cell.str "x", Cell.int 3], [Cell.str "y", Cell.int 2]]
    (by decide) (by decide) (by decide) (by decide) (by decide)
    [[Cell.str "D1", Cell.str "M1"],
      [Cell.str "x", Cell.int 8], [Cell.str "y", Cell.int 2]]
    (by decide)

theorem listAddAt_some_bound (l : List Cell) (idx : Nat) (v : Cell)
    (l2 : List Cell) (h : listAddAt l idx v = some l2) :
    idx < l.length ∧ l2.length = l.length := by
  rw [listAddAt] at h
  cases hl : l[idx]? with
  | none => rw [hl] at h; exact absurd h (by simp)
  | some a =>
    rw [hl] at h
    change Option.map (fun s => l.set idx s) (cellAdd a v) = some l2 at h
    have hidx : idx < l.length := by
      by_contra hge
      rw [List.getElem?_eq_none (Nat.le_of_not_lt hge)] at hl
      exact Option.noConfusion hl
    cases hadd : cellAdd a v with
    | none => rw [hadd] at h; exact absurd h (by simp)
    | some s =>
      rw [hadd, Option.map_some'] at h
      have h2 : l.set idx s = l2 := by simpa using h
      rw [← h2, List.length_set]
      exact ⟨hidx, rfl⟩

theorem dictAdd_some_bound :
    ∀ (d : GDict) (k : List Cell) (idx : Nat) (v : Cell) (d2 : GDict),
      dictAdd d k idx v = some d2 →
      (∃ q ∈ d, q.1 = k ∧ idx < q.2.length) ∧
        d2.map (fun q => (q.1, q.2.length)) = d.map (fun q => (q.1, q.2.length))
  | [], _, _, _, _, h => absurd h (by rw [dictAdd]; simp)
  | (k2, vs) :: rest, k, idx, v, d2, h => by
    rw [dictAdd] at h
    by_cases hk : k2 = k
    · rw [if_pos hk] at h
      cases hset : listAddAt vs idx v with
      | none => rw [hset] at h; exact absurd h (by simp)
      | some vs2 =>
        rw [hset, Option.map_some'] at h
        obtain ⟨hidx, hlen⟩ := listAddAt_some_bound vs idx v vs2 hset
        have h2 : (k2, vs2) :: rest = d2 := by simpa using h
        rw [← h2]
        refine ⟨⟨(k2, vs), List.mem_cons_self _ _, hk, hidx⟩, ?_⟩
        rw [List.map_cons, List.map_cons, hlen]
    · rw [if_neg hk] at h
      cases hrec : dictAdd rest k idx v with
      | none => rw [hrec] at h; exact absurd h (by simp)
      | some r2 =>
        rw [hrec, Option.map_some'] at h
        obtain ⟨⟨q, hq, hqk, hqidx⟩, hmapeq⟩ := dictAdd_some_bound rest k idx v r2 hrec
        have h2 : (k2, vs) :: r2 = d2 := by simpa using h
        rw [← h2]
        exact ⟨⟨q, List.mem_cons_of_mem _ hq, hqk, hqidx⟩,
          by rw [List.map_cons, List.map_cons, hmapeq]⟩

theorem mem_transfer_len {d1 d : GDict}
    (heq : d1.map (fun q => (q.1, q.2.length)) = d.map (fun q => (q.1, q.2.length)))
    {q1 : List Cell × List Cell} (hq1 : q1 ∈ d1) :
    ∃ q ∈ d, q.1 = q1.1 ∧ q.2.length = q1.2.length := by
  have hmem : (q1.1, q1.2.length) ∈ d.map (fun q => (q.1, q.2.length)) := by
    rw [← heq]
    exact List.mem_map_of_mem _ hq1
  obtain ⟨q, hq, hqeq⟩ := List.mem_map.mp hmem
  have h2 : q.1 = q1.1 ∧ q.2.length = q1.2.length := by
    simp only [Prod.mk.injEq] at hqeq
    exact hqeq
  exact ⟨q, hq, h2.1, h2.2⟩

theorem fill_enum_bound :
    ∀ (vals : List Cell) (i : Nat) (d : GDict) (k : List Cell) (res : GDict),
      (List.enumFrom i vals).foldlM (fun acc p => dictAdd acc k p.1 p.2) d =
        some res →
      (vals = [] ∨ ∃ q ∈ d, q.1 = k ∧ i + vals.length ≤ q.2.length) ∧
        res.map (fun q => (q.1, q.2.length)) = d.map (fun q => (q.1, q.2.length))
  | [], i, d, k, res, h => by
    rw [List.enumFrom_nil, List.foldlM] at h
    have h2 : d = res := by simpa using h
    exact ⟨Or.inl rfl, by rw [h2]⟩
  | v :: vs, i, d, k, res, h => by
    rw [List.enumFrom_cons, List.foldlM] at h
    cases hstep : dictAdd d k i v with
    | none =>
      rw [hstep] at h
      exact absurd h (by simp)
    | some d1 =>
      rw [hstep, Option.bind_eq_bind, Option.some_bind] at h
      obtain ⟨⟨q0, hq0, hq0k, hq0i⟩, heq1⟩ := dictAdd_some_bound d k i v d1 hstep
      obtain ⟨hbound, heq2⟩ := fill_enum_bound vs (i + 1) d1 k res h
      refine ⟨Or.inr ?_, heq2.trans heq1⟩
      rcases hbound with rfl | ⟨q1, hq1, hq1k, hq1i⟩
      · exact ⟨q0, hq0, hq0k, by simpa using hq0i⟩
      · obtain ⟨q, hq, hqfst, hqlen⟩ := mem_transfer_len heq1 hq1
        refine ⟨q, hq, hqfst.trans hq1k, ?_⟩
        rw [hqlen]
        simp only [List.length_cons]
        omega

theorem fold_fill_bound :
    ∀ (L : List (List Cell × List Cell)) (d : GDict) (res : GDict) (vc : Nat),
      (∀ q ∈ d, q.2.length = vc) →
      L.foldlM (fun acc p => addRow acc p.1 p.2) d = some res →
      ∀ p ∈ L, p.2.length ≤ vc
  | [], _, _, _, _, _, p, hp => absurd hp (List.not_mem_nil p)
  | p0 :: L, d, res, vc, hinv, h, p, hp => by
    rw [List.foldlM] at h
    cases hstep : addRow d p0.1 p0.2 with
    | none =>
      rw [hstep] at h
      exact absurd h (by simp)
    | some d1 =>
      rw [hstep, Option.bind_eq_bind, Option.some_bind] at h
      rw [addRow] at hstep
      obtain ⟨hbound, heq⟩ := fill_enum_bound p0.2 0 d p0.1 d1 hstep
      have hinv1 : ∀ q ∈ d1, q.2.length = vc := by
        intro q1 hq1
        obtain ⟨q, hq, _, hqlen⟩ := mem_transfer_len heq hq1
        rw [← hqlen]
        exact hinv q hq
      rcases List.mem_cons.mp hp with rfl | hpL
      · rcases hbound with he | ⟨q, hq, _, hqi⟩
        · rw [he]
          exact Nat.zero_le vc
        · rw [← hinv q hq]
          simpa using hqi
      · exact fold_fill_bound L d1 res vc hinv1 h p hpL

/-- Claim C4, counterexample: `group_values` has no row-length check.
The data row `[x, 5]` is shorter than the 3-column header, yet grouping
returns a result, zero-padding the missing measure. -/
theorem group_values_short_row_cex :
    group_values [[Cell.str "D1", Cell.str "M1", Cell.str "M2"],
        [Cell.str "x", Cell.int 5]] =
      some [[Cell.str "D1", Cell.str "M1", Cell.str "M2"],
        [Cell.str "x", Cell.int 5, Cell.int 0]] ∧
    ([Cell.str "x", Cell.int 5] : List Cell).length ≠
      ([Cell.str "D1", Cell.str "M1", Cell.str "M2"] : List Cell).length :=
  ⟨by decide, by decide⟩

/-- Claim C4, amended: `group_values` performs no explicit row-length
validation and raises no `HeterogeneousRowLength` error.  On a nonempty
input with a string header, string key cells and integer measure cells,
it returns a result exactly when every data row is at most as long as
the header: shorter rows are padded by the zero accumulators, while a
row longer than the header fails (Python's `IndexError` on the
accumulator), not with a dedicated length error. -/
theorem group_values_length_behavior (header : List Cell) (names : List String)
    (rows : List (List Cell))
    (hh : optMapM cellStr? header = some names) (hne : rows ≠ [])
    (hkey : ∀ r ∈ rows, ∀ c ∈ r.take (indexCountOf names), cellIsStr c = true)
    (hmeas : ∀ r ∈ rows, ∀ c ∈ r.drop (indexCountOf names), cellIsInt c = true) :
    (group_values (header :: rows)).isSome = true ↔
      ∀ r ∈ rows, r.length ≤ header.length := by
  have hic : indexCountOf names ≤ header.length := by
    have hlen2 : header.length = names.length :=
      List.Forall₂.length_eq ((optMapM_some_iff cellStr? header names).mp hh)
    rw [indexCountOf, hlen2]
    exact List.length_filter_le _ _
  constructor
  · intro hsome
    obtain ⟨r0, rest, rfl⟩ : ∃ r0 rest, rows = r0 :: rest := by
      cases rows with
      | nil => exact absurd rfl hne
      | cons r0 rest => exact ⟨r0, rest, rfl⟩
    simp only [group_values, hh] at hsome
    cases hfold : ((r0 :: rest).map (fun r =>
        (r.take (indexCountOf names), r.drop (indexCountOf names)))).foldlM
        (fun d p => addRow d p.1 p.2)
        ((((dedup1 (((r0 :: rest).map (fun r =>
          (r.take (indexCountOf names), r.drop (indexCountOf names)))).map
            (fun p => p.1))).insertionSort keyR)).map
          (fun k => (k, List.replicate (header.length - indexCountOf names)
            (Cell.int 0)))) with
    | none =>
      rw [hfold] at hsome
      exact absurd hsome (by simp)
    | some res =>
      intro r hr
      have hbound := fold_fill_bound _ _ res
        (header.length - indexCountOf names)
        (by
          intro q hq
          obtain ⟨k, _, rfl⟩ := List.mem_map.mp hq
          exact List.length_replicate _ _)
        hfold
        (r.take (indexCountOf names), r.drop (indexCountOf names))
        (List.mem_map_of_mem _ hr)
      simp only [List.length_drop] at hbound
      omega
  · intro hfit
    rw [group_values_spec header names rows hh hne hfit
      (fun r hr c hc => (cellIsInt_iff c).mp (hmeas r hr c hc))]
    rfl

/-- Witness of C4's amended theorem at the header `[D1, M1, M2]` with the
single short data row `[x, 5]`. -/
theorem group_values_length_behavior_witness :
    (group_values [[Cell.str "D1", Cell.str "M1", Cell.str "M2"],
        [Cell.str "x", Cell.int 5]]).isSome = true ↔
      ∀ r ∈ [[Cell.str "x", Cell.int 5]],
        r.length ≤ ([Cell.str "D1", Cell.str "M1", Cell.str "M2"] :
          List Cell).length :=
  group_values_length_behavior [Cell.str "D1", Cell.str "M1", Cell.str "M2"]
    ["D1", "M1", "M2"] [[Cell.str "x", Cell.int 5]]
    (by decide) (by decide) (by decide) (by decide)
